import Mathlib

/-!
Shallow embedding of the generic RBM training engine of
`include/dll/trainer/rbm_trainer.hpp` (dll library).

Machine scalars (the `weight` type of the layer, `float`/`double`) are
modelled as rationals; the process-wide random engine is modelled by
explicit parameters: a stream of position permutations (one per epoch,
`perms`) for `std::shuffle`/`cpp::parallel_shuffle`, and a stream of
uniform draws (`draws`) for the denoising-auto corruption, consumed
sequentially through a cursor, exactly as the single shared
`dll::rand_engine()` is consumed by the C++ code.

State that the C++ mutates in place (the rbm layer, the engine's
counters, the training context, the working data buffers) is threaded
explicitly through a `RunState` record.  Beyond the fields the C++
itself holds, `RunState` carries pure observation fields (`events`,
`trace`, `presented`, `calls`) recording what the run emitted on
stdout/watcher, the divisors used at each epoch finalization, the
batches handed to the trainer and the number of trainer invocations;
they are write-only instrumentation and never influence the run.
-/

namespace DLL

/-- A training sample: one input vector of scalars. -/
abbrev Sample := List ℚ

/-- Compile-time capability flags of a layer (`rbm_layer_traits`). -/
structure Caps where
  has_shuffle : Bool
  has_momentum : Bool
  init_weights : Bool
  free_energy : Bool
  is_verbose : Bool
deriving DecidableEq, Repr

/-- The layer state the engine reads and mutates: learnable weights,
the momentum scalar and its schedule constants, and the declared
training batch size (`get_batch_size(rbm)`). -/
structure RBM where
  caps : Caps
  batch_size : ℕ
  weights : List ℚ
  momentum : ℚ
  initial_momentum : ℚ
  final_momentum : ℚ
  final_momentum_epoch : ℕ
deriving DecidableEq, Repr

/-- Modelled from the spec: `rbm_training_context`
(`dll/trainer/rbm_training_context.hpp`, not part of the excerpt) is the
per-epoch accumulator {reconstruction_error, sparsity, free_energy}
plus the per-batch fields {batch_error, batch_sparsity} set by the
trainer; the spec states it is created fresh (zeroed) each epoch. -/
structure Context where
  reconstruction_error : ℚ := 0
  sparsity : ℚ := 0
  free_energy : ℚ := 0
  batch_error : ℚ := 0
  batch_sparsity : ℚ := 0
deriving DecidableEq, Repr

/-- The engine's own member fields (`rbm_trainer`). -/
structure Engine where
  batch_size : ℕ := 0
  total_batches : ℕ := 0
  last_error : ℚ := 0
  batches : ℕ := 0
  samples : ℕ := 0
deriving DecidableEq, Repr

/-- Observable output of a run: watcher notifications and the stdout
warning about a sample count not divisible by the batch size. -/
inductive Event where
  | training_begin
  | warning
  | batch_end (batch : ℕ) (total : ℕ)
  | epoch_end (epoch : ℕ) (re : ℚ) (sp : ℚ) (fe : ℚ)
  | training_end
deriving DecidableEq, Repr

/-- The pluggable per-layer numeric hooks: the batch trainer
(`trainer->train_batch`, with internal state `σ`, reading the current
weights and producing `(new trainer state, batch_error, batch_sparsity,
new weights)`), the optional data-dependent weight initialization
(`rbm.init_weights`) and the free-energy functional
(`rbm.free_energy`). -/
structure Hooks (σ : Type) where
  step : σ → List ℚ → List Sample → List Sample → σ × ℚ × ℚ × List ℚ
  initw : List Sample → List ℚ → List ℚ
  fe : List ℚ → Sample → ℚ

/-- Static configuration of one `rbm_trainer` instantiation: the
`Denoising` and `EnableWatcher` template flags, the `DLL_SILENT`
compile flag, the hooks, and the modelled random streams. -/
structure Cfg (σ : Type) where
  den : Bool
  silent : Bool
  ew : Bool
  hooks : Hooks σ
  perms : ℕ → List ℕ
  draws : ℕ → ℚ

/-- The data buffers of a range-based run: the caller's two ranges and
the buffers the working iterators denote.  `is_copy` records whether
`prepare_it` materialized engine-internal copies (`input_copy`,
`expected_copy`) or handed back the caller's own iterators. -/
structure Buffers where
  caller_input : List Sample
  caller_expected : List Sample
  work_input : List Sample
  work_expected : List Sample
  is_copy : Bool
deriving DecidableEq, Repr

/-- Whole mutable state threaded through a run, plus write-only
instrumentation: `trace` records `(batches, samples)` as read by each
`finalize_epoch`, `presented` the input batches handed to the trainer,
`calls` the number of trainer invocations, `cursor` the position in the
random-draw stream. -/
structure RunState (σ : Type) where
  rbm : RBM
  eng : Engine
  ts : σ
  ctx : Context
  bufs : Buffers
  events : List Event
  trace : List (ℕ × ℕ)
  presented : List (List Sample)
  calls : ℕ
  cursor : ℕ

/-- Apply a position permutation, drawn from the shared random engine,
to a list: the element at position `k` afterwards is the element that
was at position `p k` before. -/
def applyPerm (p : List ℕ) (xs : List α) [Inhabited α] : List α :=
  p.map fun i => xs.getD i default

/-- Source `shuffle_direct`: `std::shuffle` on a single sequence, gated on the
`has_shuffle` capability. -/
def shuffle_direct (hs : Bool) (p : List ℕ) (xs : List Sample) : List Sample :=
  if hs then applyPerm p xs else xs

/-- Source `shuffle`: gated on `has_shuffle`; in `Denoising` mode
`cpp::parallel_shuffle` on the pair, otherwise `std::shuffle` on the
input alone (the expected iterators then alias the input buffer, so
both views see the shuffled data).  Modelled from the spec:
`cpp::parallel_shuffle` (cpp_utils, not in the excerpt) applies one
joint permutation to both ranges so position `i` and its mate move
together. -/
def shuffle (den hs : Bool) (p : List ℕ) (input expected : List Sample) :
    List Sample × List Sample :=
  if hs then
    if den then (applyPerm p input, applyPerm p expected)
    else
      let i := applyPerm p input
      (i, i)
  else (input, expected)

/-- Source `prepare_it`: with the shuffle capability, copy the caller's data
into engine-internal vectors and work on the copies (in non-denoising
mode the expected iterators alias the input copy); without it, work
directly on the caller's iterators. -/
def prepare_it (hs den : Bool) (input expected : List Sample) : Buffers :=
  if hs then
    { caller_input := input, caller_expected := expected,
      work_input := input,
      work_expected := if den then expected else input,
      is_copy := true }
  else
    { caller_input := input, caller_expected := expected,
      work_input := input, work_expected := expected, is_copy := false }

/-- Store new contents through the working iterators: when they denote
engine-internal copies only the copies change; when they denote the
caller's ranges the caller's data changes with them. -/
def writeWork (b : Buffers) (wi we : List Sample) : Buffers :=
  if b.is_copy then { b with work_input := wi, work_expected := we }
  else { b with work_input := wi, work_expected := we,
                caller_input := wi, caller_expected := we }

/-- Common body of both `train_batch` overloads: count the batch, run
the trainer (which sets `batch_error`/`batch_sparsity` and updates the
weights), fold the batch fields into the epoch accumulators, accumulate
free energy per sample when watched and supported, and notify a verbose
watcher. -/
def do_batch (cfg : Cfg σ) (input expected : List Sample) (s : RunState σ) :
    RunState σ :=
  let eng := { s.eng with batches := s.eng.batches + 1 }
  let r := cfg.hooks.step s.ts s.rbm.weights input expected
  let rbm := { s.rbm with weights := r.2.2.2 }
  let ctx := { s.ctx with batch_error := r.2.1, batch_sparsity := r.2.2.1 }
  let ctx := { ctx with
    reconstruction_error := ctx.reconstruction_error + ctx.batch_error,
    sparsity := ctx.sparsity + ctx.batch_sparsity }
  let ctx := if cfg.ew && rbm.caps.free_energy then
      { ctx with free_energy := ctx.free_energy + (input.map (cfg.hooks.fe rbm.weights)).sum }
    else ctx
  { s with
    eng := eng, ts := r.1, rbm := rbm, ctx := ctx,
    events := s.events ++ (if cfg.ew && rbm.caps.is_verbose then
        [Event.batch_end eng.batches eng.total_batches] else []),
    presented := s.presented ++ [input],
    calls := s.calls + 1 }

/-- The range-based `train_sub` loop: advance the two cursors in
lockstep by at most `bs` elements (counting each advanced sample) and
train that batch, until the input cursor reaches the end.  Note the
final batch may hold fewer than `bs` samples and is trained all the
same.  (With `bs = 0` the C++ loop would not terminate; the model
returns the state unchanged and every theorem below assumes
`bs ≥ 1`.) -/
def range_batches (cfg : Cfg σ) (bs : ℕ) (wi we : List Sample) (s : RunState σ) :
    RunState σ :=
  if h : bs = 0 ∨ wi = [] then s
  else
    let ib := wi.take bs
    let eb := we.take bs
    let s := { s with eng := { s.eng with samples := s.eng.samples + ib.length } }
    range_batches cfg bs (wi.drop bs) (we.drop bs) (do_batch cfg ib eb s)
termination_by wi.length
decreasing_by
  simp only [List.length_drop]
  rcases Nat.eq_zero_or_pos bs with h0 | h0
  · exact absurd (Or.inl h0) h
  · have : wi ≠ [] := fun he => h (Or.inr he)
    have : 0 < wi.length := List.length_pos.mpr this
    omega

/-- Source `init_epoch`: reset the per-epoch batch and sample counters. -/
def init_epoch (s : RunState σ) : RunState σ :=
  { s with eng := { s.eng with batches := 0, samples := 0 } }

/-- Source `finalize_epoch`: divide the error/sparsity accumulators by the
epoch's batch count and the free-energy accumulator by the epoch's
sample count, apply the momentum switch when the epoch index equals
`final_momentum_epoch`, notify the watcher and save `last_error`. -/
def finalize_epoch (cfg : Cfg σ) (epoch : ℕ) (s : RunState σ) : RunState σ :=
  let ctx := { s.ctx with
    reconstruction_error := s.ctx.reconstruction_error / (s.eng.batches : ℚ),
    sparsity := s.ctx.sparsity / (s.eng.batches : ℚ),
    free_energy := s.ctx.free_energy / (s.eng.samples : ℚ) }
  let rbm := if s.rbm.caps.has_momentum && (epoch == s.rbm.final_momentum_epoch) then
      { s.rbm with momentum := s.rbm.final_momentum }
    else s.rbm
  { s with
    ctx := ctx, rbm := rbm,
    eng := { s.eng with last_error := ctx.reconstruction_error },
    events := s.events ++ (if cfg.ew then
        [Event.epoch_end epoch ctx.reconstruction_error ctx.sparsity ctx.free_energy] else []),
    trace := s.trace ++ [(s.eng.batches, s.eng.samples)] }

/-- One iteration of the range-based epoch loop of `train`: shuffle (in
place, through the working iterators), create a fresh context, reset
the counters, run the batch loop, finalize. -/
def range_epoch (cfg : Cfg σ) (epoch : ℕ) (s : RunState σ) : RunState σ :=
  let sh := shuffle cfg.den s.rbm.caps.has_shuffle (cfg.perms epoch)
      s.bufs.work_input s.bufs.work_expected
  let s := { s with bufs := writeWork s.bufs sh.1 sh.2, ctx := {} }
  let s := init_epoch s
  let s := range_batches cfg s.eng.batch_size sh.1 sh.2 s
  finalize_epoch cfg epoch s

/-- The epoch loop: run `count` epochs starting at index `epoch`. -/
def range_epochs (cfg : Cfg σ) (epoch : ℕ) : ℕ → RunState σ → RunState σ
  | 0, s => s
  | k + 1, s => range_epochs cfg (epoch + 1) k (range_epoch cfg epoch s)

/-- Range-based `init_training`: reset momentum to its initial value,
notify `training_begin`, capture the batch size, emit the one-time
divisibility warning on stdout (unless compiled with `DLL_SILENT`),
compute `total_batches` and reset `last_error`. -/
def init_training (cfg : Cfg σ) (s : RunState σ) : RunState σ :=
  let rbm := { s.rbm with momentum := s.rbm.initial_momentum }
  let events := s.events ++ (if cfg.ew then [Event.training_begin] else [])
  let bs := rbm.batch_size
  let n := s.bufs.work_input.length
  let events := events ++ (if !cfg.silent && (n % bs != 0) then [Event.warning] else [])
  { s with rbm := rbm, events := events,
           eng := { s.eng with batch_size := bs, total_batches := n / bs, last_error := 0 } }

/-- Source `init_weights` (range form): when the layer declares the
capability, give it one pass over the input to self-initialize its
weights; otherwise a no-op. -/
def init_weights_range (cfg : Cfg σ) (s : RunState σ) : RunState σ :=
  if s.rbm.caps.init_weights then
    { s with rbm := { s.rbm with weights := cfg.hooks.initw s.bufs.work_input s.rbm.weights } }
  else s

/-- Fresh engine state at the start of a `train` call. -/
def initState (rbm : RBM) (ts : σ) (bufs : Buffers) : RunState σ :=
  { rbm := rbm, eng := {}, ts := ts, ctx := {}, bufs := bufs,
    events := [], trace := [], presented := [], calls := 0, cursor := 0 }

/-- The five-argument range-based `train`: prepare the working
iterators (copying when shuffling), initialize, optionally init
weights, run the epochs, notify `training_end`.  The returned
`last_error` is read off the final state by `train_range_error`. -/
def train_range (cfg : Cfg σ) (rbm : RBM) (ts : σ)
    (input expected : List Sample) (max_epochs : ℕ) : RunState σ :=
  let s := initState rbm ts (prepare_it rbm.caps.has_shuffle cfg.den input expected)
  let s := init_training cfg s
  let s := init_weights_range cfg s
  let s := range_epochs cfg 0 max_epochs s
  { s with events := s.events ++ (if cfg.ew then [Event.training_end] else []) }

/-- Return value of `finalize_training`: the saved last epoch error. -/
def train_range_error (cfg : Cfg σ) (rbm : RBM) (ts : σ)
    (input expected : List Sample) (max_epochs : ℕ) : ℚ :=
  (train_range cfg rbm ts input expected max_epochs).eng.last_error

/-- The external data generator: a pull-based cursor over a sequence of
(data batch, label batch) pairs, with the contract
{has_next_batch, data_batch, label_batch, next_batch, reset,
reset_shuffle, set_train, size}.  `batchSeq` is the sequence the cursor
walks after a reset; `reset_shuffle` reorders it by a permutation drawn
from the shared random engine. -/
structure Generator where
  batchSeq : List (List Sample × List Sample)
  pos : ℕ
  sz : ℕ
  train_mode : Bool
deriving DecidableEq, Repr

/-- Source `generator.reset()`. -/
def Generator.reset (g : Generator) : Generator := { g with pos := 0 }

/-- Source `generator.reset_shuffle()`: rewind and reshuffle the batch
sequence. -/
def Generator.reset_shuffle (g : Generator) (p : List ℕ) : Generator :=
  { g with pos := 0, batchSeq := applyPerm p g.batchSeq }

/-- Source `generator.set_train()`. -/
def Generator.set_train (g : Generator) : Generator := { g with train_mode := true }

/-- The generator-form `train_sub` loop, recursing on the batches that
remain before the cursor reaches the end: train each
`(data_batch, label_batch)` pair and advance.  Note it never touches
the engine's `samples` counter. -/
def gen_loop (cfg : Cfg σ) (rem : List (List Sample × List Sample)) (s : RunState σ) :
    RunState σ :=
  match rem with
  | [] => s
  | b :: rest => gen_loop cfg rest (do_batch cfg b.1 b.2 s)

/-- One iteration of the generator-based epoch loop of `train`:
`reset_shuffle` or `reset` depending on the shuffle capability,
`set_train`, fresh context, reset counters, drain the generator,
finalize. -/
def gen_epoch (cfg : Cfg σ) (epoch : ℕ) (g : Generator) (s : RunState σ) :
    Generator × RunState σ :=
  let g := if s.rbm.caps.has_shuffle then g.reset_shuffle (cfg.perms epoch) else g.reset
  let g := g.set_train
  let s := { s with ctx := {} }
  let s := init_epoch s
  let s := gen_loop cfg (g.batchSeq.drop g.pos) s
  ({ g with pos := g.batchSeq.length }, finalize_epoch cfg epoch s)

/-- The generator epoch loop. -/
def gen_epochs (cfg : Cfg σ) (epoch : ℕ) : ℕ → Generator × RunState σ → Generator × RunState σ
  | 0, gs => gs
  | k + 1, gs => gen_epochs cfg (epoch + 1) k (gen_epoch cfg epoch gs.1 gs.2)

/-- Generator-based `init_training`: same as the range form but the
size comes from `generator.size()`. -/
def init_training_gen (cfg : Cfg σ) (g : Generator) (s : RunState σ) : RunState σ :=
  let rbm := { s.rbm with momentum := s.rbm.initial_momentum }
  let events := s.events ++ (if cfg.ew then [Event.training_begin] else [])
  let bs := rbm.batch_size
  let events := events ++ (if !cfg.silent && (g.sz % bs != 0) then [Event.warning] else [])
  { s with rbm := rbm, events := events,
           eng := { s.eng with batch_size := bs, total_batches := g.sz / bs, last_error := 0 } }

/-- Source `init_weights` (generator form); the data-dependent initialization
sees the generator's data. -/
def init_weights_gen (cfg : Cfg σ) (g : Generator) (s : RunState σ) : RunState σ :=
  if s.rbm.caps.init_weights then
    { s with rbm := { s.rbm with
        weights := cfg.hooks.initw (g.batchSeq.map Prod.fst).flatten s.rbm.weights } }
  else s

/-- The data buffers of a generator-based run: the engine holds no
range data of its own (all batches live inside the generator). -/
def emptyBufs : Buffers :=
  { caller_input := [], caller_expected := [], work_input := [],
    work_expected := [], is_copy := true }

/-- The generator-based `train`. -/
def train_gen (cfg : Cfg σ) (rbm : RBM) (ts : σ) (g : Generator) (max_epochs : ℕ) :
    Generator × RunState σ :=
  let s := initState rbm ts emptyBufs
  let s := init_training_gen cfg g s
  let s := init_weights_gen cfg g s
  let gs := gen_epochs cfg 0 max_epochs (g, s)
  (gs.1, { gs.2 with events := gs.2.events ++ (if cfg.ew then [Event.training_end] else []) })

/-- The per-sample corruption loop of `train_denoising_auto`'s
`input_transformer`: each scalar consumes one fresh draw from the
shared engine (uniform on [0,1000)) and is multiplied by 0 when the
draw falls below `noise * 1000`, by 1 otherwise.  Returns the corrupted
sample and the advanced draw cursor. -/
def corruptSampleImpl (noise : ℚ) (draws : ℕ → ℚ) : ℕ → Sample → Sample × ℕ
  | c, [] => ([], c)
  | c, v :: vs =>
    let r := corruptSampleImpl noise draws (c + 1) vs
    (v * (if draws c < noise * 1000 then 0 else 1) :: r.1, r.2)

/-- The corruption pass over the whole copied input, sample by
sample. -/
def corruptImpl (noise : ℚ) (draws : ℕ → ℚ) : ℕ → List Sample → List Sample × ℕ
  | c, [] => ([], c)
  | c, x :: xs =>
    let r := corruptSampleImpl noise draws c x
    let rs := corruptImpl noise draws r.2 xs
    (r.1 :: rs.1, rs.2)

/-- Specification view of the corruption pass: element `j` of sample
`i` is zeroed exactly when the draw at stream position
`c + (length of samples 0..i-1) + j` falls below `noise * 1000`; every
element uses its own distinct stream position. -/
def corruptedSpec (noise : ℚ) (draws : ℕ → ℚ) : ℕ → List Sample → List Sample
  | _, [] => []
  | c, x :: xs =>
    (x.mapIdx fun j v => v * (if draws (c + j) < noise * 1000 then 0 else 1)) ::
      corruptedSpec noise draws (c + x.length) xs

/-- Total number of scalar elements in a sample list. -/
def totalScalars (xs : List Sample) : ℕ := (xs.map List.length).sum

/-- One iteration of the epoch loop of `train_denoising_auto`
(buffers: `work_expected` holds `input_clean`, `work_input` holds
`input_copy`): shuffle the clean data in place, copy it over the
corrupted buffer, corrupt each sample element-wise with fresh draws,
then train with the corrupted data as input and the clean data as
expected output. -/
def auto_epoch (cfg : Cfg σ) (noise : ℚ) (epoch : ℕ) (s : RunState σ) : RunState σ :=
  let clean := shuffle_direct s.rbm.caps.has_shuffle (cfg.perms epoch) s.bufs.work_expected
  let r := corruptImpl noise cfg.draws s.cursor clean
  let s := { s with
    bufs := { s.bufs with work_input := r.1, work_expected := clean },
    cursor := r.2, ctx := {} }
  let s := init_epoch s
  let s := range_batches cfg s.eng.batch_size r.1 clean s
  finalize_epoch cfg epoch s

/-- The denoising-auto epoch loop. -/
def auto_epochs (cfg : Cfg σ) (noise : ℚ) (epoch : ℕ) : ℕ → RunState σ → RunState σ
  | 0, s => s
  | k + 1, s => auto_epochs cfg noise (epoch + 1) k (auto_epoch cfg noise epoch s)

/-- Source `train_denoising_auto`: copy the caller's input into an internal
clean vector (`work_expected`), keep an internal corrupted vector of
the same length (`work_input`, default-constructed before the first
epoch overwrites it), initialize, run the epochs, finalize.  The C++
asserts `!Denoising` (the trainer is instantiated non-denoising). -/
def train_denoising_auto (cfg : Cfg σ) (rbm : RBM) (ts : σ)
    (input : List Sample) (max_epochs : ℕ) (noise : ℚ) : RunState σ :=
  let s := initState rbm ts
      { caller_input := input, caller_expected := input,
        work_input := List.replicate input.length [],
        work_expected := input, is_copy := true }
  let s := init_training cfg { s with bufs := { s.bufs with work_input := s.bufs.work_expected } }
  let s := { s with bufs := { s.bufs with work_input := List.replicate input.length [] } }
  let s := init_weights_range cfg { s with bufs := { s.bufs with work_input := s.bufs.work_expected } }
  let s := { s with bufs := { s.bufs with work_input := List.replicate input.length [] } }
  let s := auto_epochs cfg noise 0 max_epochs s
  { s with events := s.events ++ (if cfg.ew then [Event.training_end] else []) }

/-- Replay of the trainer invocations of one range-based epoch: the
`(batch_error, batch_sparsity)` pair each trainer call sets, in call
order, threading the trainer state and the weights exactly as the
batch loop does. -/
def stepOuts (hooks : Hooks σ) (ts : σ) (w : List ℚ) (bs : ℕ) (wi we : List Sample) :
    List (ℚ × ℚ) :=
  if h : bs = 0 ∨ wi = [] then []
  else
    let r := hooks.step ts w (wi.take bs) (we.take bs)
    (r.2.1, r.2.2.1) :: stepOuts hooks r.1 r.2.2.2 bs (wi.drop bs) (we.drop bs)
termination_by wi.length
decreasing_by
  simp only [List.length_drop]
  rcases Nat.eq_zero_or_pos bs with h0 | h0
  · exact absurd (Or.inl h0) h
  · have hne : wi ≠ [] := fun he => h (Or.inr he)
    have : 0 < wi.length := List.length_pos.mpr hne
    omega

/-- Number of batches the range-based batch loop performs over `n`
samples with batch size `bs`: the ceiling of `n / bs`. -/
def nBatches (bs n : ℕ) : ℕ := (n + bs - 1) / bs

/-- The successive batches the range-based batch loop carves out of a
sequence: full `bs`-sized slices, then the shorter remainder slice. -/
def chunksOf (bs : ℕ) (xs : List Sample) : List (List Sample) :=
  if h : bs = 0 ∨ xs = [] then []
  else xs.take bs :: chunksOf bs (xs.drop bs)
termination_by xs.length
decreasing_by
  simp only [List.length_drop]
  rcases Nat.eq_zero_or_pos bs with h0 | h0
  · exact absurd (Or.inl h0) h
  · have hne : xs ≠ [] := fun he => h (Or.inr he)
    have : 0 < xs.length := List.length_pos.mpr hne
    omega

/-- Predicate: `p` is a draw of `std::shuffle`/`cpp::parallel_shuffle` over `n`
positions: a permutation of the position list `0..n-1`. -/
def PermOf (p : List ℕ) (n : ℕ) : Prop := p.Perm (List.range n)

/-- Replay of the free-energy accumulation of one range-based epoch:
for each trainer invocation, the free energies of the batch's samples
(under the weights the trainer just produced), summed; in call order,
threading trainer state and weights exactly as the batch loop does. -/
def feOuts (hooks : Hooks σ) (ts : σ) (w : List ℚ) (bs : ℕ) (wi we : List Sample) :
    List ℚ :=
  if h : bs = 0 ∨ wi = [] then []
  else
    let r := hooks.step ts w (wi.take bs) (we.take bs)
    ((wi.take bs).map (hooks.fe r.2.2.2)).sum ::
      feOuts hooks r.1 r.2.2.2 bs (wi.drop bs) (we.drop bs)
termination_by wi.length
decreasing_by
  simp only [List.length_drop]
  rcases Nat.eq_zero_or_pos bs with h0 | h0
  · exact absurd (Or.inl h0) h
  · have hne : wi ≠ [] := fun he => h (Or.inr he)
    have : 0 < wi.length := List.length_pos.mpr hne
    omega

/-- The pair of working sequences one epoch trains on: the working
buffers after that epoch's in-place shuffle. -/
def epochShuffled (cfg : Cfg σ) (e : ℕ) (s : RunState σ) : List Sample × List Sample :=
  shuffle cfg.den s.rbm.caps.has_shuffle (cfg.perms e) s.bufs.work_input s.bufs.work_expected

/-- The state in which one epoch's batch loop starts: buffers stored
through the working iterators, a fresh context, zeroed counters. -/
def epoch_entry (cfg : Cfg σ) (e : ℕ) (s : RunState σ) : RunState σ :=
  let sh := shuffle cfg.den s.rbm.caps.has_shuffle (cfg.perms e) s.bufs.work_input s.bufs.work_expected
  init_epoch { s with bufs := writeWork s.bufs sh.1 sh.2, ctx := {} }

/-- The `(batch_error, batch_sparsity)` pairs the trainer sets during
one epoch, in call order. -/
def epochOuts (cfg : Cfg σ) (e : ℕ) (s : RunState σ) : List (ℚ × ℚ) :=
  stepOuts cfg.hooks s.ts s.rbm.weights s.eng.batch_size
    (epochShuffled cfg e s).1 (epochShuffled cfg e s).2

/-- The number of trainer invocations one epoch performs. -/
def epochBatchCount (cfg : Cfg σ) (e : ℕ) (s : RunState σ) : ℕ :=
  nBatches s.eng.batch_size (epochShuffled cfg e s).1.length

/-- The free-energy accumulator one epoch gathers before the final
division (zero unless watched and supported by the layer). -/
def epochFeAcc (cfg : Cfg σ) (e : ℕ) (s : RunState σ) : ℚ :=
  if (cfg.ew && s.rbm.caps.free_energy) = true
  then (feOuts cfg.hooks s.ts s.rbm.weights s.eng.batch_size
    (epochShuffled cfg e s).1 (epochShuffled cfg e s).2).sum
  else 0

/-- The clean sequence one denoising-auto epoch trains against: the
clean buffer after that epoch's in-place `shuffle_direct`. -/
def autoClean (cfg : Cfg σ) (e : ℕ) (s : RunState σ) : List Sample :=
  shuffle_direct s.rbm.caps.has_shuffle (cfg.perms e) s.bufs.work_expected

/-- The state in which a denoising-auto epoch's batch loop starts:
clean buffer shuffled, corrupted buffer regenerated, fresh context,
zeroed counters, draw cursor advanced. -/
def auto_entry (cfg : Cfg σ) (noise : ℚ) (e : ℕ) (s : RunState σ) : RunState σ :=
  let clean := shuffle_direct s.rbm.caps.has_shuffle (cfg.perms e) s.bufs.work_expected
  let r := corruptImpl noise cfg.draws s.cursor clean
  init_epoch { s with
    bufs := { s.bufs with work_input := r.1, work_expected := clean },
    cursor := r.2, ctx := {} }

/-! Concrete fixtures used to evaluate the theorems on closed runs. -/

/-- A stub trainer: constant batch error 1 and batch sparsity 2,
weights untouched. -/
def hooksU : Hooks Unit :=
  { step := fun _ w _ _ => ((), 1, 2, w), initw := fun _ w => w, fe := fun _ _ => 0 }

/-- A stub permutation stream over three positions. -/
def permsU : ℕ → List ℕ := fun _ => [0, 1, 2]

def cfgU : Cfg Unit :=
  { den := false, silent := false, ew := true, hooks := hooksU,
    perms := permsU, draws := fun _ => 0 }

/-- A plain layer: no optional capability, batch size 2. -/
def rbmU : RBM :=
  { caps := ⟨false, false, false, false, false⟩,
    batch_size := 2, weights := [0], momentum := 0, initial_momentum := 0,
    final_momentum := 0, final_momentum_epoch := 0 }

/-- Three one-element samples: one full batch of two and a remainder
of one at batch size 2. -/
def inp3 : List Sample := [[1], [2], [3]]

/-- A layer declaring the `init_weights` capability. -/
def rbmW : RBM :=
  { caps := ⟨false, false, true, false, false⟩,
    batch_size := 1, weights := [0], momentum := 0, initial_momentum := 0,
    final_momentum := 0, final_momentum_epoch := 0 }

/-- Hooks whose data-dependent weight initialization rewrites the
weights (as `rbm.init_weights` does: bias initialization from data
statistics). -/
def hooksW : Hooks Unit :=
  { step := fun _ w _ _ => ((), 0, 0, w), initw := fun _ _ => [42], fe := fun _ _ => 0 }

def cfgW : Cfg Unit :=
  { den := false, silent := false, ew := true, hooks := hooksW,
    perms := permsU, draws := fun _ => 0 }

/-- A momentum-capable layer with distinct initial and final momentum
and switch epoch 1. -/
def rbmM : RBM :=
  { caps := ⟨false, true, false, false, false⟩,
    batch_size := 1, weights := [0], momentum := 7, initial_momentum := 5,
    final_momentum := 9, final_momentum_epoch := 1 }

/-- A shuffle-capable layer. -/
def rbmS : RBM :=
  { caps := ⟨true, false, false, false, false⟩,
    batch_size := 1, weights := [0], momentum := 0, initial_momentum := 0,
    final_momentum := 0, final_momentum_epoch := 0 }

/-- A concrete two-batch generator. -/
def genU : Generator :=
  { batchSeq := [([[1], [2]], [[1], [2]]), ([[3]], [[3]])], pos := 0, sz := 3,
    train_mode := false }

/-- A concrete mid-run state with the batch size captured, used to
evaluate per-epoch theorems. -/
def sU : RunState Unit :=
  init_training cfgU (initState rbmU () (prepare_it false false inp3 inp3))

/-! ### Invariants of the batch loop -/

/-- State components the batch loop never writes: everything of the
layer except the weights, the working buffers, the engine's
configuration, the finalization trace, the draw cursor and the count of
emitted warnings. -/
def Frame (s t : RunState σ) : Prop :=
  t.rbm.caps = s.rbm.caps ∧
  t.rbm.momentum = s.rbm.momentum ∧
  t.rbm.initial_momentum = s.rbm.initial_momentum ∧
  t.rbm.final_momentum = s.rbm.final_momentum ∧
  t.rbm.final_momentum_epoch = s.rbm.final_momentum_epoch ∧
  t.rbm.batch_size = s.rbm.batch_size ∧
  t.bufs = s.bufs ∧
  t.eng.batch_size = s.eng.batch_size ∧
  t.eng.total_batches = s.eng.total_batches ∧
  t.trace = s.trace ∧
  t.cursor = s.cursor ∧
  t.events.count Event.warning = s.events.count Event.warning

/-- State components one epoch never writes: the layer's capability
flags and momentum-schedule constants, the engine's configuration, the
draw cursor, the warning count, and — when the working iterators denote
engine-internal copies — the caller's data. -/
def EFrame (s t : RunState σ) : Prop :=
  t.rbm.caps = s.rbm.caps ∧
  t.rbm.initial_momentum = s.rbm.initial_momentum ∧
  t.rbm.final_momentum = s.rbm.final_momentum ∧
  t.rbm.final_momentum_epoch = s.rbm.final_momentum_epoch ∧
  t.rbm.batch_size = s.rbm.batch_size ∧
  t.eng.batch_size = s.eng.batch_size ∧
  t.eng.total_batches = s.eng.total_batches ∧
  t.cursor = s.cursor ∧
  t.events.count Event.warning = s.events.count Event.warning ∧
  t.bufs.is_copy = s.bufs.is_copy ∧
  (s.bufs.is_copy = true →
    t.bufs.caller_input = s.bufs.caller_input ∧
    t.bufs.caller_expected = s.bufs.caller_expected)

theorem frame_refl (s : RunState σ) : Frame s s :=
  ⟨rfl, rfl, rfl, rfl, rfl, rfl, rfl, rfl, rfl, rfl, rfl, rfl⟩

theorem frame_trans {s t u : RunState σ} (h1 : Frame s t) (h2 : Frame t u) : Frame s u := by
  obtain ⟨a1, a2, a3, a4, a5, a6, a7, a8, a9, a10, a11, a12⟩ := h1
  obtain ⟨b1, b2, b3, b4, b5, b6, b7, b8, b9, b10, b11, b12⟩ := h2
  exact ⟨b1.trans a1, b2.trans a2, b3.trans a3, b4.trans a4, b5.trans a5, b6.trans a6,
    b7.trans a7, b8.trans a8, b9.trans a9, b10.trans a10, b11.trans a11, b12.trans a12⟩

theorem do_batch_frame (cfg : Cfg σ) (i e : List Sample) (s : RunState σ) :
    Frame s (do_batch cfg i e s) := by
  refine ⟨rfl, rfl, rfl, rfl, rfl, rfl, rfl, rfl, rfl, rfl, rfl, ?_⟩
  simp only [do_batch, List.count_append]
  split <;> simp [List.count_cons]

theorem samples_bump_frame (s : RunState σ) (k : ℕ) :
    Frame s { s with eng := { s.eng with samples := s.eng.samples + k } } :=
  ⟨rfl, rfl, rfl, rfl, rfl, rfl, rfl, rfl, rfl, rfl, rfl, rfl⟩

theorem range_batches_frame (cfg : Cfg σ) (bs : ℕ) (wi we : List Sample) (s : RunState σ) :
    Frame s (range_batches cfg bs wi we s) := by
  induction wi, we, s using range_batches.induct cfg bs with
  | case1 wi we s h =>
    rw [range_batches, dif_pos h]
    exact frame_refl s
  | case2 wi we s h ib eb s1 ih =>
    rw [range_batches, dif_neg h]
    exact frame_trans (frame_trans (samples_bump_frame s _) (do_batch_frame cfg _ _ _)) ih

theorem nBatches_zero (bs : ℕ) : nBatches bs 0 = 0 := by
  rcases bs with _ | b
  · simp [nBatches]
  · unfold nBatches
    have h : 0 + (b + 1) - 1 = b := by omega
    rw [h, Nat.div_eq_of_lt (Nat.lt_succ_self b)]

theorem nBatches_step {bs n : ℕ} (hbs : bs ≠ 0) (hn : n ≠ 0) :
    nBatches bs n = nBatches bs (n - bs) + 1 := by
  have hb : 0 < bs := Nat.pos_of_ne_zero hbs
  unfold nBatches
  have h1 : n + bs - 1 = (n - 1) + bs := by omega
  rw [h1, Nat.add_div_right _ hb]
  rcases le_or_lt n bs with h | h
  · have h0 : n - bs = 0 := by omega
    rw [h0]
    have h2 : (n - 1) / bs = 0 := Nat.div_eq_of_lt (by omega)
    have h3 : (0 + bs - 1) / bs = 0 := Nat.div_eq_of_lt (by omega)
    rw [h2, h3]
  · have h2 : n - bs + bs - 1 = (n - bs - 1) + bs := by omega
    rw [h2, Nat.add_div_right _ hb]
    have h3 : (n - 1) / bs = (n - 1 - bs) / bs + 1 :=
      Nat.div_eq_sub_div hb (by omega)
    rw [h3]
    have h4 : n - 1 - bs = n - bs - 1 := by omega
    rw [h4]

/-- Concatenating the batch slices gives back the whole sequence: the
range-based loop hands every sample, the trailing remainder included,
to the trainer. -/
theorem chunksOf_flatten {bs : ℕ} (hbs : bs ≠ 0) (xs : List Sample) :
    (chunksOf bs xs).flatten = xs := by
  induction xs using chunksOf.induct bs with
  | case1 xs h =>
    rw [chunksOf, dif_pos h]
    rcases h with h | h
    · exact absurd h hbs
    · simp [h]
  | case2 xs h ih =>
    rw [chunksOf, dif_neg h]
    simp only [List.flatten_cons, ih]
    exact List.take_append_drop bs xs

theorem chunksOf_length {bs : ℕ} (hbs : bs ≠ 0) (xs : List Sample) :
    (chunksOf bs xs).length = nBatches bs xs.length := by
  induction xs using chunksOf.induct bs with
  | case1 xs h =>
    rw [chunksOf, dif_pos h]
    rcases h with h | h
    · exact absurd h hbs
    · simp [h, nBatches_zero]
  | case2 xs h ih =>
    rw [chunksOf, dif_neg h]
    have hne : xs ≠ [] := fun he => h (Or.inr he)
    have hlen : xs.length ≠ 0 := fun he => hne (List.length_eq_zero.mp he)
    simp only [List.length_cons, ih, List.length_drop]
    rw [nBatches_step hbs hlen]

theorem do_batch_counts (cfg : Cfg σ) (i e : List Sample) (s : RunState σ) :
    (do_batch cfg i e s).eng.samples = s.eng.samples ∧
    (do_batch cfg i e s).eng.batches = s.eng.batches + 1 ∧
    (do_batch cfg i e s).calls = s.calls + 1 ∧
    (do_batch cfg i e s).presented = s.presented ++ [i] := by
  simp [do_batch]

/-- The batch loop counts every sample into `samples`, performs exactly
`⌈wi.length / bs⌉` trainer invocations (counted both by the per-epoch
`batches` counter and by the global instrumentation `calls`), and hands
the trainer exactly the slices `chunksOf bs wi`. -/
theorem range_batches_counts {bs : ℕ} (hbs : bs ≠ 0) (cfg : Cfg σ)
    (wi we : List Sample) (s : RunState σ) :
    (range_batches cfg bs wi we s).eng.samples = s.eng.samples + wi.length ∧
    (range_batches cfg bs wi we s).eng.batches = s.eng.batches + nBatches bs wi.length ∧
    (range_batches cfg bs wi we s).calls = s.calls + nBatches bs wi.length ∧
    (range_batches cfg bs wi we s).presented = s.presented ++ chunksOf bs wi := by
  induction wi, we, s using range_batches.induct cfg bs with
  | case1 wi we s h =>
    rw [range_batches, dif_pos h, chunksOf, dif_pos (by tauto)]
    rcases h with h | h
    · exact absurd h hbs
    · simp [h, nBatches_zero]
  | case2 wi we s h ib eb s1 ih =>
    rw [range_batches, dif_neg h]
    obtain ⟨ih1, ih2, ih3, ih4⟩ := ih
    obtain ⟨d1, d2, d3, d4⟩ := do_batch_counts cfg ib eb s1
    have hne : wi ≠ [] := fun he => h (Or.inr he)
    have hlen : wi.length ≠ 0 := fun he => hne (List.length_eq_zero.mp he)
    have htake : ib.length = min bs wi.length := by simp [ib]
    have hstep := nBatches_step hbs hlen
    refine ⟨?_, ?_, ?_, ?_⟩
    · rw [ih1, d1]
      show s.eng.samples + ib.length + (List.drop bs wi).length = _
      simp only [List.length_drop, htake]
      have : bs ≤ wi.length ∨ wi.length < bs := le_or_lt bs wi.length
      omega
    · rw [ih2, d2]
      show s.eng.batches + 1 + nBatches bs (List.drop bs wi).length = _
      simp only [List.length_drop]
      omega
    · rw [ih3, d3]
      show s.calls + 1 + nBatches bs (List.drop bs wi).length = _
      simp only [List.length_drop]
      omega
    · have hch : chunksOf bs wi = ib :: chunksOf bs (List.drop bs wi) := by
        rw [chunksOf, dif_neg h]
      rw [ih4, d4, hch]
      simp

theorem do_batch_ctx (cfg : Cfg σ) (i e : List Sample) (s : RunState σ) :
    (do_batch cfg i e s).ctx.reconstruction_error
      = s.ctx.reconstruction_error + (cfg.hooks.step s.ts s.rbm.weights i e).2.1 ∧
    (do_batch cfg i e s).ctx.sparsity
      = s.ctx.sparsity + (cfg.hooks.step s.ts s.rbm.weights i e).2.2.1 ∧
    (do_batch cfg i e s).ts = (cfg.hooks.step s.ts s.rbm.weights i e).1 ∧
    (do_batch cfg i e s).rbm.weights = (cfg.hooks.step s.ts s.rbm.weights i e).2.2.2 := by
  refine ⟨?_, ?_, ?_, ?_⟩
  · simp only [do_batch]
    split <;> rfl
  · simp only [do_batch]
    split <;> rfl
  · rfl
  · rfl

/-- The epoch's error and sparsity accumulators gather exactly the sum
of the per-batch `batch_error`/`batch_sparsity` values the trainer
sets, one pair per trainer invocation. -/
theorem range_batches_ctx {bs : ℕ} (hbs : bs ≠ 0) (cfg : Cfg σ)
    (wi we : List Sample) (s : RunState σ) :
    (range_batches cfg bs wi we s).ctx.reconstruction_error
      = s.ctx.reconstruction_error +
        ((stepOuts cfg.hooks s.ts s.rbm.weights bs wi we).map Prod.fst).sum ∧
    (range_batches cfg bs wi we s).ctx.sparsity
      = s.ctx.sparsity +
        ((stepOuts cfg.hooks s.ts s.rbm.weights bs wi we).map Prod.snd).sum := by
  induction wi, we, s using range_batches.induct cfg bs with
  | case1 wi we s h =>
    rw [range_batches, dif_pos h, stepOuts, dif_pos h]
    simp
  | case2 wi we s h ib eb s1 ih =>
    rw [range_batches, dif_neg h, stepOuts, dif_neg h]
    obtain ⟨ih1, ih2⟩ := ih
    obtain ⟨d1, d2, d3, d4⟩ := do_batch_ctx cfg ib eb s1
    constructor
    · rw [ih1, d1, d3, d4]
      show s.ctx.reconstruction_error + _ + _ = _
      simp only [List.map_cons, List.sum_cons]
      ring
    · rw [ih2, d2, d3, d4]
      show s.ctx.sparsity + _ + _ = _
      simp only [List.map_cons, List.sum_cons]
      ring

theorem stepOuts_length (hooks : Hooks σ) (ts : σ) (w : List ℚ)
    (bs : ℕ) (wi we : List Sample) (hbs : bs ≠ 0) :
    (stepOuts hooks ts w bs wi we).length = nBatches bs wi.length := by
  revert hbs
  induction ts, w, bs, wi, we using stepOuts.induct hooks with
  | case1 ts w bs wi we h =>
    intro hbs
    rw [stepOuts, dif_pos h]
    rcases h with h | h
    · exact absurd h hbs
    · simp [h, nBatches_zero]
  | case2 ts w bs wi we h r ih =>
    intro hbs
    rw [stepOuts, dif_neg h]
    have hne : wi ≠ [] := fun he => h (Or.inr he)
    have hlen : wi.length ≠ 0 := fun he => hne (List.length_eq_zero.mp he)
    simp only [List.length_cons, ih hbs, List.length_drop]
    rw [nBatches_step hbs hlen]

/-! ### Invariants of the epoch loop -/

theorem eframe_refl (s : RunState σ) : EFrame s s :=
  ⟨rfl, rfl, rfl, rfl, rfl, rfl, rfl, rfl, rfl, rfl, fun _ => ⟨rfl, rfl⟩⟩

theorem eframe_trans {s t u : RunState σ} (h1 : EFrame s t) (h2 : EFrame t u) :
    EFrame s u := by
  obtain ⟨a1, a2, a3, a4, a5, a6, a7, a8, a9, a10, a11⟩ := h1
  obtain ⟨b1, b2, b3, b4, b5, b6, b7, b8, b9, b10, b11⟩ := h2
  refine ⟨b1.trans a1, b2.trans a2, b3.trans a3, b4.trans a4, b5.trans a5, b6.trans a6,
    b7.trans a7, b8.trans a8, b9.trans a9, b10.trans a10, fun hc => ?_⟩
  obtain ⟨c1, c2⟩ := a11 hc
  obtain ⟨d1, d2⟩ := b11 (a10.trans hc)
  exact ⟨d1.trans c1, d2.trans c2⟩

theorem frame_toEFrame {s t : RunState σ} (h : Frame s t) : EFrame s t := by
  obtain ⟨a1, a2, a3, a4, a5, a6, a7, a8, a9, a10, a11, a12⟩ := h
  exact ⟨a1, a3, a4, a5, a6, a8, a9, a11, a12, by rw [a7], fun _ => ⟨by rw [a7], by rw [a7]⟩⟩

/-- The working-iterator store never touches the caller's data when the
iterators denote engine-internal copies. -/
theorem writeWork_is_copy (b : Buffers) (wi we : List Sample) :
    (writeWork b wi we).is_copy = b.is_copy ∧
    (writeWork b wi we).work_input = wi ∧
    (writeWork b wi we).work_expected = we ∧
    (b.is_copy = true →
      (writeWork b wi we).caller_input = b.caller_input ∧
      (writeWork b wi we).caller_expected = b.caller_expected) := by
  unfold writeWork
  by_cases hc : b.is_copy <;> simp [hc]

theorem finalize_epoch_eframe (cfg : Cfg σ) (e : ℕ) (s : RunState σ) :
    EFrame s (finalize_epoch cfg e s) := by
  unfold finalize_epoch
  refine ⟨?_, ?_, ?_, ?_, ?_, rfl, rfl, rfl, ?_, rfl, fun _ => ⟨rfl, rfl⟩⟩
  · split <;> rfl
  · split <;> rfl
  · split <;> rfl
  · split <;> rfl
  · split <;> rfl
  · simp only [List.count_append]
    split <;> simp [List.count_cons]

theorem range_epoch_eframe (cfg : Cfg σ) (e : ℕ) (s : RunState σ) :
    EFrame s (range_epoch cfg e s) := by
  obtain ⟨w1, w2, w3, w4⟩ := writeWork_is_copy s.bufs
    (shuffle cfg.den s.rbm.caps.has_shuffle (cfg.perms e) s.bufs.work_input s.bufs.work_expected).1
    (shuffle cfg.den s.rbm.caps.has_shuffle (cfg.perms e) s.bufs.work_input s.bufs.work_expected).2
  unfold range_epoch
  refine eframe_trans ?_ (finalize_epoch_eframe cfg e _)
  refine eframe_trans ?_ (frame_toEFrame (range_batches_frame cfg _ _ _ _))
  exact ⟨rfl, rfl, rfl, rfl, rfl, rfl, rfl, rfl, rfl, w1, w4⟩

theorem range_epochs_eframe (cfg : Cfg σ) (start k : ℕ) (s : RunState σ) :
    EFrame s (range_epochs cfg start k s) := by
  induction k generalizing start s with
  | zero => exact eframe_refl s
  | succ k ih =>
    exact eframe_trans (range_epoch_eframe cfg start s) (ih (start + 1) _)

theorem range_epochs_succ (cfg : Cfg σ) (start k : ℕ) (s : RunState σ) :
    range_epochs cfg start (k + 1) s
      = range_epoch cfg (start + k) (range_epochs cfg start k s) := by
  induction k generalizing start s with
  | zero => simp [range_epochs]
  | succ k ih =>
    show range_epochs cfg (start + 1) (k + 1) (range_epoch cfg start s) = _
    rw [ih (start + 1) (range_epoch cfg start s)]
    show range_epoch cfg (start + 1 + k) _ = _
    have h : start + 1 + k = start + (k + 1) := by omega
    rw [h]
    rfl

theorem finalize_epoch_momentum (cfg : Cfg σ) (e : ℕ) (s : RunState σ) :
    (finalize_epoch cfg e s).rbm.momentum =
      if s.rbm.caps.has_momentum && (e == s.rbm.final_momentum_epoch)
      then s.rbm.final_momentum else s.rbm.momentum := by
  by_cases hc : (s.rbm.caps.has_momentum && (e == s.rbm.final_momentum_epoch)) = true <;>
    simp [finalize_epoch, hc]

theorem epoch_core_momentum (cfg : Cfg σ) (e bs : ℕ) (wi we : List Sample)
    (s₀ : RunState σ) :
    (finalize_epoch cfg e (range_batches cfg bs wi we s₀)).rbm.momentum =
      if s₀.rbm.caps.has_momentum && (e == s₀.rbm.final_momentum_epoch)
      then s₀.rbm.final_momentum else s₀.rbm.momentum := by
  rw [finalize_epoch_momentum]
  obtain ⟨f1, f2, f3, f4, f5, -⟩ := range_batches_frame cfg bs wi we s₀
  rw [f1, f2, f4, f5]

/-- Within one range-based epoch the momentum field changes exactly at
finalization, exactly when the epoch index equals
`final_momentum_epoch` on a momentum-capable layer. -/
theorem range_epoch_momentum (cfg : Cfg σ) (e : ℕ) (s : RunState σ) :
    (range_epoch cfg e s).rbm.momentum =
      if s.rbm.caps.has_momentum && (e == s.rbm.final_momentum_epoch)
      then s.rbm.final_momentum else s.rbm.momentum := by
  unfold range_epoch
  rw [epoch_core_momentum]
  rfl

theorem shuffle_length {p : List ℕ} {n : ℕ} (hp : PermOf p n)
    (den hs : Bool) (input expected : List Sample) (hn : input.length = n) :
    (shuffle den hs p input expected).1.length = n := by
  unfold shuffle
  have hap : (applyPerm p input).length = n := by
    simp [applyPerm]
    exact (hp.length_eq).trans (List.length_range n)
  rcases hs with _ | _
  · simpa using hn
  · rcases den with _ | _ <;> simpa using hap

theorem epoch_core_counts (cfg : Cfg σ) (e bs : ℕ) (wi we : List Sample)
    (s₀ : RunState σ) (hbs : bs ≠ 0) :
    (finalize_epoch cfg e (range_batches cfg bs wi we s₀)).trace
      = s₀.trace ++ [(s₀.eng.batches + nBatches bs wi.length, s₀.eng.samples + wi.length)] ∧
    (finalize_epoch cfg e (range_batches cfg bs wi we s₀)).calls
      = s₀.calls + nBatches bs wi.length ∧
    (finalize_epoch cfg e (range_batches cfg bs wi we s₀)).presented
      = s₀.presented ++ chunksOf bs wi ∧
    (finalize_epoch cfg e (range_batches cfg bs wi we s₀)).bufs = s₀.bufs := by
  obtain ⟨c1, c2, c3, c4⟩ := range_batches_counts hbs cfg wi we s₀
  obtain ⟨-, -, -, -, -, -, f7, -, -, f10, -, -⟩ := range_batches_frame cfg bs wi we s₀
  refine ⟨?_, ?_, ?_, ?_⟩
  · show _ ++ [(_, _)] = _
    rw [f10, c1, c2]
  · show (range_batches cfg bs wi we s₀).calls = _
    rw [c3]
  · show (range_batches cfg bs wi we s₀).presented = _
    rw [c4]
  · show (range_batches cfg bs wi we s₀).bufs = _
    rw [f7]

/-- One range-based epoch appends one `(batches, samples)` entry to the
finalization trace, with `batches = ⌈n' / bs⌉` and `samples = n'` for
`n'` the post-shuffle sample count; `calls` grows by the same batch
count and `presented` by exactly the slices of the shuffled data, and
the buffers end up exactly as the in-place shuffle left them. -/
theorem range_epoch_counts (cfg : Cfg σ) (e : ℕ) (s : RunState σ)
    (hbs : s.eng.batch_size ≠ 0) :
    (range_epoch cfg e s).trace = s.trace ++
      [(nBatches s.eng.batch_size
          (shuffle cfg.den s.rbm.caps.has_shuffle (cfg.perms e)
            s.bufs.work_input s.bufs.work_expected).1.length,
        (shuffle cfg.den s.rbm.caps.has_shuffle (cfg.perms e)
            s.bufs.work_input s.bufs.work_expected).1.length)] ∧
    (range_epoch cfg e s).calls = s.calls + nBatches s.eng.batch_size
        (shuffle cfg.den s.rbm.caps.has_shuffle (cfg.perms e)
          s.bufs.work_input s.bufs.work_expected).1.length ∧
    (range_epoch cfg e s).presented = s.presented ++ chunksOf s.eng.batch_size
        (shuffle cfg.den s.rbm.caps.has_shuffle (cfg.perms e)
          s.bufs.work_input s.bufs.work_expected).1 ∧
    (range_epoch cfg e s).bufs = writeWork s.bufs
        (shuffle cfg.den s.rbm.caps.has_shuffle (cfg.perms e)
          s.bufs.work_input s.bufs.work_expected).1
        (shuffle cfg.den s.rbm.caps.has_shuffle (cfg.perms e)
          s.bufs.work_input s.bufs.work_expected).2 := by
  unfold range_epoch
  obtain ⟨c1, c2, c3, c4⟩ := epoch_core_counts cfg e s.eng.batch_size
    (shuffle cfg.den s.rbm.caps.has_shuffle (cfg.perms e) s.bufs.work_input s.bufs.work_expected).1
    (shuffle cfg.den s.rbm.caps.has_shuffle (cfg.perms e) s.bufs.work_input s.bufs.work_expected).2
    _ hbs
  refine ⟨c1.trans ?_, c2, c3, c4⟩
  simp [init_epoch]

/-- Across the whole epoch loop, momentum ends at `final_momentum`
exactly when a momentum-capable run contains the epoch with index
`final_momentum_epoch`, and is otherwise left as it began. -/
theorem range_epochs_momentum (cfg : Cfg σ) (k start : ℕ) (s : RunState σ) :
    (range_epochs cfg start k s).rbm.momentum =
      if s.rbm.caps.has_momentum = true ∧ start ≤ s.rbm.final_momentum_epoch
          ∧ s.rbm.final_momentum_epoch < start + k
      then s.rbm.final_momentum else s.rbm.momentum := by
  induction k generalizing start s with
  | zero =>
    rw [if_neg]
    · rfl
    · rintro ⟨-, h1, h2⟩
      omega
  | succ k ih =>
    show (range_epochs cfg (start + 1) k (range_epoch cfg start s)).rbm.momentum = _
    rw [ih]
    obtain ⟨e1, e2, e3, e4, -⟩ := range_epoch_eframe cfg start s
    rw [range_epoch_momentum, e1, e3, e4]
    by_cases hm : s.rbm.caps.has_momentum = true
    · simp only [hm, Bool.true_and, beq_iff_eq, true_and]
      split_ifs <;> first | rfl | omega
    · rw [Bool.not_eq_true] at hm
      simp [hm]

/-- Over `k` range-based epochs with genuine permutations, every epoch
finalizes with divisors `(⌈n / bs⌉, n)` and the trainer is invoked
`⌈n / bs⌉` times per epoch, `n` being the (invariant) working sample
count. -/
theorem range_epochs_counts (cfg : Cfg σ) (k start : ℕ) (s : RunState σ) (n : ℕ)
    (hbs : s.eng.batch_size ≠ 0) (hn : s.bufs.work_input.length = n)
    (hp : ∀ e, PermOf (cfg.perms e) n) :
    (range_epochs cfg start k s).trace
      = s.trace ++ List.replicate k (nBatches s.eng.batch_size n, n) ∧
    (range_epochs cfg start k s).calls = s.calls + k * nBatches s.eng.batch_size n ∧
    (range_epochs cfg start k s).bufs.work_input.length = n := by
  induction k generalizing start s with
  | zero =>
    exact ⟨by simp [range_epochs], by simp [range_epochs], hn⟩
  | succ k ih =>
    obtain ⟨c1, c2, c3, c4⟩ := range_epoch_counts cfg start s hbs
    have hlen : (shuffle cfg.den s.rbm.caps.has_shuffle (cfg.perms start)
        s.bufs.work_input s.bufs.work_expected).1.length = n :=
      shuffle_length (hp start) _ _ _ _ hn
    have hbs' : (range_epoch cfg start s).eng.batch_size = s.eng.batch_size :=
      (range_epoch_eframe cfg start s).2.2.2.2.2.1
    have hwi : (range_epoch cfg start s).bufs.work_input.length = n := by
      rw [c4]
      obtain ⟨-, w2, -, -⟩ := writeWork_is_copy s.bufs _ _
      rw [w2, hlen]
    obtain ⟨i1, i2, i3⟩ := ih (start + 1) (range_epoch cfg start s)
      (by rw [hbs']; exact hbs) hwi
    rw [hbs'] at i1 i2
    refine ⟨?_, ?_, i3⟩
    · show (range_epochs cfg (start + 1) k (range_epoch cfg start s)).trace = _
      rw [i1, c1, hlen]
      simp [List.replicate_succ]
    · show (range_epochs cfg (start + 1) k (range_epoch cfg start s)).calls = _
      rw [i2, c2, hlen]
      ring

/-! ### The engine never reads the random streams except through
`shuffle`: congruence in the permutation stream for layers without the
shuffle capability -/

theorem range_batches_congr (cfg cfg' : Cfg σ) (hh : cfg.hooks = cfg'.hooks)
    (hw : cfg.ew = cfg'.ew) (bs : ℕ) (wi we : List Sample) (s : RunState σ) :
    range_batches cfg bs wi we s = range_batches cfg' bs wi we s := by
  induction wi, we, s using range_batches.induct cfg bs with
  | case1 wi we s h =>
    conv_lhs => rw [range_batches]
    conv_rhs => rw [range_batches]
    rw [dif_pos h, dif_pos h]
  | case2 wi we s h ib eb s1 ih =>
    have hdb : do_batch cfg ib eb s1 = do_batch cfg' ib eb s1 := by
      unfold do_batch
      rw [hh, hw]
    conv_lhs => rw [range_batches]
    conv_rhs => rw [range_batches]
    rw [dif_neg h, dif_neg h]
    show range_batches cfg bs (List.drop bs wi) (List.drop bs we) (do_batch cfg ib eb s1)
        = range_batches cfg' bs (List.drop bs wi) (List.drop bs we) (do_batch cfg' ib eb s1)
    rw [← hdb]
    exact ih

theorem finalize_epoch_congr (cfg cfg' : Cfg σ) (hw : cfg.ew = cfg'.ew)
    (e : ℕ) (s : RunState σ) :
    finalize_epoch cfg e s = finalize_epoch cfg' e s := by
  unfold finalize_epoch
  rw [hw]

theorem range_epoch_perms (cfg : Cfg σ) (p₁ p₂ : ℕ → List ℕ) (e : ℕ) (s : RunState σ)
    (hs : s.rbm.caps.has_shuffle = false) :
    range_epoch { cfg with perms := p₁ } e s = range_epoch { cfg with perms := p₂ } e s := by
  unfold range_epoch
  rw [hs]
  simp only [shuffle, Bool.false_eq_true, if_false]
  rw [range_batches_congr { cfg with perms := p₁ } { cfg with perms := p₂ } rfl rfl]
  exact finalize_epoch_congr _ _ rfl _ _

theorem range_epochs_perms (cfg : Cfg σ) (p₁ p₂ : ℕ → List ℕ) (k start : ℕ)
    (s : RunState σ) (hs : s.rbm.caps.has_shuffle = false) :
    range_epochs { cfg with perms := p₁ } start k s
      = range_epochs { cfg with perms := p₂ } start k s := by
  induction k generalizing start s with
  | zero => rfl
  | succ k ih =>
    show range_epochs _ (start + 1) k (range_epoch { cfg with perms := p₁ } start s) = _
    rw [range_epoch_perms cfg p₁ p₂ start s hs]
    have hs' : (range_epoch { cfg with perms := p₂ } start s).rbm.caps.has_shuffle = false := by
      rw [(range_epoch_eframe { cfg with perms := p₂ } start s).1, hs]
    exact ih (start + 1) _ hs'

/-! ### Generator-based training -/

theorem gen_loop_frame (cfg : Cfg σ) (rem : List (List Sample × List Sample))
    (s : RunState σ) : Frame s (gen_loop cfg rem s) := by
  induction rem generalizing s with
  | nil => exact frame_refl s
  | cons b rest ih =>
    exact frame_trans (do_batch_frame cfg b.1 b.2 s) (ih (do_batch cfg b.1 b.2 s))

/-- The generator-form batch loop never increments the engine's
`samples` counter. -/
theorem gen_loop_samples (cfg : Cfg σ) (rem : List (List Sample × List Sample))
    (s : RunState σ) : (gen_loop cfg rem s).eng.samples = s.eng.samples := by
  induction rem generalizing s with
  | nil => rfl
  | cons b rest ih =>
    show (gen_loop cfg rest (do_batch cfg b.1 b.2 s)).eng.samples = _
    rw [ih, (do_batch_counts cfg b.1 b.2 s).1]

theorem gen_core (cfg : Cfg σ) (e : ℕ) (rem : List (List Sample × List Sample))
    (s₀ : RunState σ) :
    (finalize_epoch cfg e (gen_loop cfg rem s₀)).trace
      = s₀.trace ++ [((gen_loop cfg rem s₀).eng.batches, s₀.eng.samples)] ∧
    (finalize_epoch cfg e (gen_loop cfg rem s₀)).events.count Event.warning
      = s₀.events.count Event.warning := by
  obtain ⟨-, -, -, -, -, -, -, -, -, f10, -, f12⟩ := gen_loop_frame cfg rem s₀
  constructor
  · show _ ++ [(_, _)] = _
    rw [f10, gen_loop_samples]
  · have hfw := (finalize_epoch_eframe cfg e (gen_loop cfg rem s₀)).2.2.2.2.2.2.2.2.1
    rw [hfw, f12]

theorem gen_epoch_trace (cfg : Cfg σ) (e : ℕ) (g : Generator) (s : RunState σ) :
    (∃ b : ℕ, (gen_epoch cfg e g s).2.trace = s.trace ++ [(b, 0)]) ∧
    (gen_epoch cfg e g s).2.events.count Event.warning
      = s.events.count Event.warning := by
  unfold gen_epoch
  obtain ⟨h1, h2⟩ := gen_core cfg e
    (((if s.rbm.caps.has_shuffle then g.reset_shuffle (cfg.perms e)
        else g.reset).set_train).batchSeq.drop
      ((if s.rbm.caps.has_shuffle then g.reset_shuffle (cfg.perms e)
        else g.reset).set_train).pos)
    (init_epoch { s with ctx := {} })
  exact ⟨⟨_, h1⟩, h2⟩

theorem gen_epochs_trace (cfg : Cfg σ) (k start : ℕ) (g : Generator) (s : RunState σ) :
    (gen_epochs cfg start k (g, s)).2.trace.length = s.trace.length + k ∧
    (∀ pr ∈ (gen_epochs cfg start k (g, s)).2.trace, pr ∈ s.trace ∨ pr.2 = 0) ∧
    (gen_epochs cfg start k (g, s)).2.events.count Event.warning
      = s.events.count Event.warning := by
  induction k generalizing start g s with
  | zero =>
    refine ⟨rfl, ?_, rfl⟩
    intro pr hpr
    exact Or.inl hpr
  | succ k ih =>
    obtain ⟨⟨b, ht⟩, hw⟩ := gen_epoch_trace cfg start g s
    obtain ⟨i1, i2, i3⟩ := ih (start + 1) (gen_epoch cfg start g s).1 (gen_epoch cfg start g s).2
    refine ⟨?_, ?_, ?_⟩
    · show (gen_epochs cfg (start + 1) k
          ((gen_epoch cfg start g s).1, (gen_epoch cfg start g s).2)).2.trace.length = _
      rw [i1, ht]
      simp
      omega
    · intro pr hpr
      have hpr' : pr ∈ (gen_epochs cfg (start + 1) k
          ((gen_epoch cfg start g s).1, (gen_epoch cfg start g s).2)).2.trace := hpr
      rcases i2 pr hpr' with h | h
      · rw [ht] at h
        rcases List.mem_append.mp h with h | h
        · exact Or.inl h
        · right
          simp at h
          rw [h]
      · exact Or.inr h
    · show (gen_epochs cfg (start + 1) k
          ((gen_epoch cfg start g s).1, (gen_epoch cfg start g s).2)).2.events.count
            Event.warning = _
      rw [i3, hw]

/-! ### Free-energy accumulation and the epoch means -/

theorem do_batch_fe (cfg : Cfg σ) (i e : List Sample) (s : RunState σ) :
    (do_batch cfg i e s).ctx.free_energy = s.ctx.free_energy +
      (if (cfg.ew && s.rbm.caps.free_energy) = true
       then (i.map (cfg.hooks.fe (cfg.hooks.step s.ts s.rbm.weights i e).2.2.2)).sum
       else 0) := by
  by_cases hc : (cfg.ew && s.rbm.caps.free_energy) = true <;>
    simp [do_batch, hc]

theorem range_batches_fe {bs : ℕ} (hbs : bs ≠ 0) (cfg : Cfg σ)
    (wi we : List Sample) (s : RunState σ) :
    (range_batches cfg bs wi we s).ctx.free_energy
      = s.ctx.free_energy +
        (if (cfg.ew && s.rbm.caps.free_energy) = true
         then (feOuts cfg.hooks s.ts s.rbm.weights bs wi we).sum else 0) := by
  induction wi, we, s using range_batches.induct cfg bs with
  | case1 wi we s h =>
    rw [range_batches, dif_pos h, feOuts, dif_pos h]
    simp
  | case2 wi we s h ib eb s1 ih =>
    rw [range_batches, dif_neg h, feOuts, dif_neg h]
    have hcap := (do_batch_frame cfg ib eb s1).1
    obtain ⟨-, -, d3, d4⟩ := do_batch_ctx cfg ib eb s1
    rw [ih, do_batch_fe cfg ib eb s1, hcap, d3, d4]
    have hib : ib = List.take bs wi := rfl
    have heb : eb = List.take bs we := rfl
    have h1 : s1.rbm = s.rbm := rfl
    have h2 : s1.ts = s.ts := rfl
    have h3 : s1.ctx = s.ctx := rfl
    rw [hib, heb, h1, h2, h3]
    by_cases hc : (cfg.ew && s.rbm.caps.free_energy) = true
    · rw [if_pos hc, if_pos hc, if_pos hc]
      simp only [List.sum_cons]
      ring
    · rw [if_neg hc, if_neg hc, if_neg hc]
      ring

theorem epoch_core_ctx (cfg : Cfg σ) (e bs : ℕ) (wi we : List Sample)
    (s₀ : RunState σ) (hbs : bs ≠ 0) :
    (finalize_epoch cfg e (range_batches cfg bs wi we s₀)).eng.last_error
      = (s₀.ctx.reconstruction_error +
          ((stepOuts cfg.hooks s₀.ts s₀.rbm.weights bs wi we).map Prod.fst).sum)
        / ((s₀.eng.batches + nBatches bs wi.length : ℕ) : ℚ) ∧
    (finalize_epoch cfg e (range_batches cfg bs wi we s₀)).ctx.reconstruction_error
      = (s₀.ctx.reconstruction_error +
          ((stepOuts cfg.hooks s₀.ts s₀.rbm.weights bs wi we).map Prod.fst).sum)
        / ((s₀.eng.batches + nBatches bs wi.length : ℕ) : ℚ) ∧
    (finalize_epoch cfg e (range_batches cfg bs wi we s₀)).ctx.sparsity
      = (s₀.ctx.sparsity +
          ((stepOuts cfg.hooks s₀.ts s₀.rbm.weights bs wi we).map Prod.snd).sum)
        / ((s₀.eng.batches + nBatches bs wi.length : ℕ) : ℚ) ∧
    (finalize_epoch cfg e (range_batches cfg bs wi we s₀)).ctx.free_energy
      = (s₀.ctx.free_energy +
          (if (cfg.ew && s₀.rbm.caps.free_energy) = true
           then (feOuts cfg.hooks s₀.ts s₀.rbm.weights bs wi we).sum else 0))
        / ((s₀.eng.samples + wi.length : ℕ) : ℚ) ∧
    (finalize_epoch cfg e (range_batches cfg bs wi we s₀)).events
      = (range_batches cfg bs wi we s₀).events ++
        (if cfg.ew then
          [Event.epoch_end e
            ((s₀.ctx.reconstruction_error +
              ((stepOuts cfg.hooks s₀.ts s₀.rbm.weights bs wi we).map Prod.fst).sum)
              / ((s₀.eng.batches + nBatches bs wi.length : ℕ) : ℚ))
            ((s₀.ctx.sparsity +
              ((stepOuts cfg.hooks s₀.ts s₀.rbm.weights bs wi we).map Prod.snd).sum)
              / ((s₀.eng.batches + nBatches bs wi.length : ℕ) : ℚ))
            ((s₀.ctx.free_energy +
              (if (cfg.ew && s₀.rbm.caps.free_energy) = true
               then (feOuts cfg.hooks s₀.ts s₀.rbm.weights bs wi we).sum else 0))
              / ((s₀.eng.samples + wi.length : ℕ) : ℚ))] else []) := by
  obtain ⟨x1, x2⟩ := range_batches_ctx hbs cfg wi we s₀
  obtain ⟨c1, c2, -, -⟩ := range_batches_counts hbs cfg wi we s₀
  have xf := range_batches_fe hbs cfg wi we s₀
  refine ⟨?_, ?_, ?_, ?_, ?_⟩
  · show (range_batches cfg bs wi we s₀).ctx.reconstruction_error
        / ((range_batches cfg bs wi we s₀).eng.batches : ℚ) = _
    rw [x1, c2]
  · show (range_batches cfg bs wi we s₀).ctx.reconstruction_error
        / ((range_batches cfg bs wi we s₀).eng.batches : ℚ) = _
    rw [x1, c2]
  · show (range_batches cfg bs wi we s₀).ctx.sparsity
        / ((range_batches cfg bs wi we s₀).eng.batches : ℚ) = _
    rw [x2, c2]
  · show (range_batches cfg bs wi we s₀).ctx.free_energy
        / ((range_batches cfg bs wi we s₀).eng.samples : ℚ) = _
    rw [xf, c1]
  · show (range_batches cfg bs wi we s₀).events ++ _ = _
    rw [x1, x2, xf, c1, c2]

/-! ### The denoising-auto corruption pass -/

theorem totalScalars_nil : totalScalars [] = 0 := rfl

theorem totalScalars_cons (x : Sample) (xs : List Sample) :
    totalScalars (x :: xs) = x.length + totalScalars xs := by
  simp [totalScalars]

/-- The per-sample corruption loop consumes one fresh draw per scalar:
it advances the cursor by the sample's length, and the element at
position `j` is the original times 0 or 1 according to the draw at
stream position `c + j`. -/
theorem corruptSampleImpl_spec (noise : ℚ) (draws : ℕ → ℚ) (c : ℕ) (x : Sample) :
    (corruptSampleImpl noise draws c x).2 = c + x.length ∧
    (corruptSampleImpl noise draws c x).1.length = x.length ∧
    ∀ j, j < x.length →
      (corruptSampleImpl noise draws c x).1.getD j 0
        = x.getD j 0 * (if draws (c + j) < noise * 1000 then 0 else 1) := by
  induction x generalizing c with
  | nil => exact ⟨rfl, rfl, fun j hj => absurd hj (by simp)⟩
  | cons v vs ih =>
    obtain ⟨i1, i2, i3⟩ := ih (c + 1)
    refine ⟨?_, ?_, ?_⟩
    · show (corruptSampleImpl noise draws (c + 1) vs).2 = _
      rw [i1, List.length_cons]
      omega
    · show (_ :: (corruptSampleImpl noise draws (c + 1) vs).1).length = _
      simp [i2]
    · intro j hj
      cases j with
      | zero =>
        show v * (if draws c < noise * 1000 then 0 else 1) = _
        rfl
      | succ j =>
        show (corruptSampleImpl noise draws (c + 1) vs).1.getD j 0 = _
        rw [i3 j (by simpa using hj)]
        have h : c + 1 + j = c + (j + 1) := by omega
        rw [h]
        rfl

/-- The corruption pass over the whole input consumes exactly one
fresh draw per scalar element, in order: the cursor advances by the
total scalar count, and element `j` of sample `i` is decided by the
draw at the distinct stream position
`c + totalScalars (first i samples) + j`. -/
theorem corruptImpl_spec (noise : ℚ) (draws : ℕ → ℚ) (c : ℕ) (xs : List Sample) :
    (corruptImpl noise draws c xs).2 = c + totalScalars xs ∧
    (corruptImpl noise draws c xs).1.length = xs.length ∧
    ∀ i, i < xs.length →
      ((corruptImpl noise draws c xs).1.getD i []).length = (xs.getD i []).length ∧
      ∀ j, j < (xs.getD i []).length →
        ((corruptImpl noise draws c xs).1.getD i []).getD j 0
          = (xs.getD i []).getD j 0 *
            (if draws (c + totalScalars (xs.take i) + j) < noise * 1000 then 0 else 1) := by
  induction xs generalizing c with
  | nil => exact ⟨rfl, rfl, fun i hi => absurd hi (by simp)⟩
  | cons x rest ih =>
    obtain ⟨s1, s2, s3⟩ := corruptSampleImpl_spec noise draws c x
    obtain ⟨i1, i2, i3⟩ := ih (corruptSampleImpl noise draws c x).2
    refine ⟨?_, ?_, ?_⟩
    · show (corruptImpl noise draws (corruptSampleImpl noise draws c x).2 rest).2 = _
      rw [i1, s1, totalScalars_cons]
      omega
    · show ((corruptSampleImpl noise draws c x).1 ::
          (corruptImpl noise draws (corruptSampleImpl noise draws c x).2 rest).1).length = _
      simp [i2]
    · intro i hi
      cases i with
      | zero =>
        refine ⟨s2, ?_⟩
        intro j hj
        show (corruptSampleImpl noise draws c x).1.getD j 0 = _
        rw [s3 j hj]
        rfl
      | succ i =>
        obtain ⟨l1, l2⟩ := i3 i (by simpa using hi)
        refine ⟨l1, ?_⟩
        intro j hj
        show ((corruptImpl noise draws (corruptSampleImpl noise draws c x).2 rest).1.getD i []).getD j 0 = _
        rw [l2 j hj]
        have h : (corruptSampleImpl noise draws c x).2 + totalScalars (rest.take i) + j
            = c + totalScalars ((x :: rest).take (i + 1)) + j := by
          rw [s1, List.take_succ_cons, totalScalars_cons]
          omega
        rw [h]
        rfl

/-! ### Initialization stages -/

theorem prepare_it_parts (hs den : Bool) (input expected : List Sample) :
    (prepare_it hs den input expected).work_input = input ∧
    (prepare_it hs den input expected).caller_input = input ∧
    (prepare_it hs den input expected).caller_expected = expected ∧
    (hs = true → (prepare_it hs den input expected).is_copy = true) ∧
    (hs = false → (prepare_it hs den input expected).is_copy = false) := by
  cases hs <;> simp [prepare_it]

theorem init_weights_range_parts (cfg : Cfg σ) (s : RunState σ) :
    (init_weights_range cfg s).trace = s.trace ∧
    (init_weights_range cfg s).calls = s.calls ∧
    (init_weights_range cfg s).eng = s.eng ∧
    (init_weights_range cfg s).bufs = s.bufs ∧
    (init_weights_range cfg s).events = s.events ∧
    (init_weights_range cfg s).rbm.caps = s.rbm.caps ∧
    (init_weights_range cfg s).rbm.momentum = s.rbm.momentum ∧
    (init_weights_range cfg s).rbm.initial_momentum = s.rbm.initial_momentum ∧
    (init_weights_range cfg s).rbm.final_momentum = s.rbm.final_momentum ∧
    (init_weights_range cfg s).rbm.final_momentum_epoch = s.rbm.final_momentum_epoch ∧
    (s.rbm.caps.init_weights = false →
      (init_weights_range cfg s).rbm.weights = s.rbm.weights) := by
  unfold init_weights_range
  split
  next h =>
    refine ⟨rfl, rfl, rfl, rfl, rfl, rfl, rfl, rfl, rfl, rfl, fun hf => ?_⟩
    rw [hf] at h
    simp at h
  next h =>
    exact ⟨rfl, rfl, rfl, rfl, rfl, rfl, rfl, rfl, rfl, rfl, fun _ => rfl⟩

theorem init_weights_gen_parts (cfg : Cfg σ) (g : Generator) (s : RunState σ) :
    (init_weights_gen cfg g s).trace = s.trace ∧
    (init_weights_gen cfg g s).calls = s.calls ∧
    (init_weights_gen cfg g s).eng = s.eng ∧
    (init_weights_gen cfg g s).events = s.events ∧
    (init_weights_gen cfg g s).rbm.caps = s.rbm.caps := by
  unfold init_weights_gen
  split <;> exact ⟨rfl, rfl, rfl, rfl, rfl⟩

/-! ### Claim theorems -/

/-- C10: for every shuffle-capable layer, range-based `train` copies
the caller's sequences into engine-internal vectors (`is_copy`) and the
caller's input and expected data are bit-for-bit unchanged when `train`
returns, whatever the trainer, epoch count or random draws did. -/
theorem claim_C10_caller_unmodified (cfg : Cfg σ) (rbm : RBM) (ts : σ)
    (input expected : List Sample) (m : ℕ)
    (hs : rbm.caps.has_shuffle = true) :
    (train_range cfg rbm ts input expected m).bufs.caller_input = input ∧
    (train_range cfg rbm ts input expected m).bufs.caller_expected = expected ∧
    (train_range cfg rbm ts input expected m).bufs.is_copy = true := by
  unfold train_range
  obtain ⟨p1, p2, p3, p4, -⟩ := prepare_it_parts rbm.caps.has_shuffle cfg.den input expected
  obtain ⟨-, -, -, b4, -⟩ := init_weights_range_parts cfg
    (init_training cfg (initState rbm ts (prepare_it rbm.caps.has_shuffle cfg.den input expected)))
  have hS : (init_weights_range cfg
      (init_training cfg (initState rbm ts
        (prepare_it rbm.caps.has_shuffle cfg.den input expected)))).bufs
      = prepare_it rbm.caps.has_shuffle cfg.den input expected := b4
  obtain ⟨-, -, -, -, -, -, -, -, -, e10, e11⟩ := range_epochs_eframe cfg 0 m
    (init_weights_range cfg (init_training cfg (initState rbm ts
      (prepare_it rbm.caps.has_shuffle cfg.den input expected))))
  have hcopy : (init_weights_range cfg (init_training cfg (initState rbm ts
      (prepare_it rbm.caps.has_shuffle cfg.den input expected)))).bufs.is_copy = true := by
    rw [hS]
    exact p4 hs
  obtain ⟨k1, k2⟩ := e11 hcopy
  refine ⟨?_, ?_, ?_⟩
  · show (range_epochs cfg 0 m _).bufs.caller_input = input
    rw [k1, hS, p2]
  · show (range_epochs cfg 0 m _).bufs.caller_expected = expected
    rw [k2, hS, p3]
  · show (range_epochs cfg 0 m _).bufs.is_copy = true
    rw [e10, hcopy]

/-- C7: for layers without the shuffle capability the shuffle step is a
literal no-op, and two runs with the same layer and data are identical
whatever permutations the random engine would have produced: same
result, same events, same batches presented to the trainer. -/
theorem claim_C7_no_shuffle_deterministic (cfg : Cfg σ) (rbm : RBM) (ts : σ)
    (input expected : List Sample) (m : ℕ) (p₁ p₂ : ℕ → List ℕ)
    (hs : rbm.caps.has_shuffle = false) :
    train_range { cfg with perms := p₁ } rbm ts input expected m
      = train_range { cfg with perms := p₂ } rbm ts input expected m ∧
    (∀ (den : Bool) (p : List ℕ) (i e : List Sample), shuffle den false p i e = (i, e)) := by
  constructor
  · unfold train_range
    have hS : ∀ q : ℕ → List ℕ,
        init_weights_range { cfg with perms := q } (init_training { cfg with perms := q }
          (initState rbm ts (prepare_it rbm.caps.has_shuffle
            ({ cfg with perms := q } : Cfg σ).den input expected)))
        = init_weights_range cfg (init_training cfg
          (initState rbm ts (prepare_it rbm.caps.has_shuffle cfg.den input expected))) :=
      fun q => rfl
    simp only [hS]
    have hs' : (init_weights_range cfg (init_training cfg
        (initState rbm ts (prepare_it rbm.caps.has_shuffle cfg.den
          input expected)))).rbm.caps.has_shuffle = false := by
      rw [(init_weights_range_parts cfg _).2.2.2.2.2.1]
      exact hs
    rw [range_epochs_perms cfg p₁ p₂ m 0 _ hs']
  · intro den p i e
    rfl

/-- C5: momentum equals `initial_momentum` from training start through
every epoch strictly before `final_momentum_epoch`; it is set to
`final_momentum` by the finalization of exactly the epoch whose index
equals `final_momentum_epoch`, and any other epoch leaves it
untouched. -/
theorem claim_C5_momentum_schedule (cfg : Cfg σ) (rbm : RBM) (ts : σ)
    (input expected : List Sample) (hm : rbm.caps.has_momentum = true) :
    (∀ m, m ≤ rbm.final_momentum_epoch →
      (train_range cfg rbm ts input expected m).rbm.momentum = rbm.initial_momentum) ∧
    (∀ m, rbm.final_momentum_epoch < m →
      (train_range cfg rbm ts input expected m).rbm.momentum = rbm.final_momentum) ∧
    (∀ (e : ℕ) (t : RunState σ), e ≠ t.rbm.final_momentum_epoch →
      (range_epoch cfg e t).rbm.momentum = t.rbm.momentum) ∧
    (∀ (e : ℕ) (t : RunState σ), t.rbm.caps.has_momentum = true →
      e = t.rbm.final_momentum_epoch →
      (range_epoch cfg e t).rbm.momentum = t.rbm.final_momentum) := by
  have hstage : ∀ m : ℕ, (train_range cfg rbm ts input expected m).rbm.momentum
      = (range_epochs cfg 0 m (init_weights_range cfg (init_training cfg
          (initState rbm ts (prepare_it rbm.caps.has_shuffle cfg.den
            input expected))))).rbm.momentum := fun m => rfl
  set S := init_weights_range cfg (init_training cfg
    (initState rbm ts (prepare_it rbm.caps.has_shuffle cfg.den input expected))) with hSdef
  obtain ⟨-, -, -, -, -, q6, q7, q8, q9, q10, -⟩ := init_weights_range_parts cfg
    (init_training cfg (initState rbm ts (prepare_it rbm.caps.has_shuffle cfg.den
      input expected)))
  have hcaps : S.rbm.caps = rbm.caps := q6
  have hmom : S.rbm.momentum = rbm.initial_momentum := q7
  have hini : S.rbm.initial_momentum = rbm.initial_momentum := q8
  have hfin : S.rbm.final_momentum = rbm.final_momentum := q9
  have hfme : S.rbm.final_momentum_epoch = rbm.final_momentum_epoch := q10
  refine ⟨?_, ?_, ?_, ?_⟩
  · intro m hle
    rw [hstage m, range_epochs_momentum, hcaps, hfme, hfin, hmom,
      if_neg (by rintro ⟨-, -, h2⟩; omega)]
  · intro m hlt
    rw [hstage m, range_epochs_momentum, hcaps, hfme, hfin, hmom,
      if_pos ⟨by rw [hcaps] at *; exact hm, by omega, by omega⟩]
  · intro e t hne
    rw [range_epoch_momentum, if_neg]
    rw [Bool.and_eq_true]
    rintro ⟨-, hb⟩
    exact hne (beq_iff_eq.mp hb)
  · intro e t htm hfe
    rw [range_epoch_momentum, if_pos]
    rw [htm, beq_iff_eq.mpr hfe, Bool.and_self]

/-- C4: the generator-form batch loop never increments the engine's
per-epoch `samples` counter — only the range-based loop does — so in a
generator-based run every epoch finalization divides the free-energy
accumulator by a sample count of zero. -/
theorem claim_C4_generator_zero_samples (cfg : Cfg σ) (rbm : RBM) (ts : σ)
    (g : Generator) (m : ℕ) :
    (∀ (rem : List (List Sample × List Sample)) (t : RunState σ),
      (gen_loop cfg rem t).eng.samples = t.eng.samples) ∧
    (train_gen cfg rbm ts g m).2.trace.length = m ∧
    (∀ pr ∈ (train_gen cfg rbm ts g m).2.trace, pr.2 = 0) := by
  refine ⟨fun rem t => gen_loop_samples cfg rem t, ?_, ?_⟩
  all_goals
    have hS : (init_weights_gen cfg g (init_training_gen cfg g (initState rbm ts emptyBufs))).trace = [] :=
      (init_weights_gen_parts cfg g _).1.trans rfl
  · obtain ⟨h1, -, -⟩ := gen_epochs_trace cfg m 0 g
      (init_weights_gen cfg g (init_training_gen cfg g (initState rbm ts emptyBufs)))
    show (gen_epochs cfg 0 m (g, _)).2.trace.length = m
    rw [h1, hS]
    simp
  · obtain ⟨-, h2, -⟩ := gen_epochs_trace cfg m 0 g
      (init_weights_gen cfg g (init_training_gen cfg g (initState rbm ts emptyBufs)))
    intro pr hpr
    have hpr' : pr ∈ (gen_epochs cfg 0 m (g,
        init_weights_gen cfg g (init_training_gen cfg g (initState rbm ts emptyBufs)))).2.trace := hpr
    rcases h2 pr hpr' with h | h
    · rw [hS] at h
      simp at h
    · exact h

/-- C8: the divisibility warning is printed exactly once per training
run, at initialization, regardless of the epoch count, and only when
`DLL_SILENT` is off — for range-based runs (sample count from the
range) and generator-based runs (sample count from `generator.size()`)
alike. -/
theorem claim_C8_warning_once (cfg : Cfg σ) (rbm : RBM) (ts : σ)
    (input expected : List Sample) (m : ℕ) (g : Generator)
    (hbs : rbm.batch_size ≠ 0) :
    (train_range cfg rbm ts input expected m).events.count Event.warning
      = (if cfg.silent = false ∧ input.length % rbm.batch_size ≠ 0 then 1 else 0) ∧
    (train_gen cfg rbm ts g m).2.events.count Event.warning
      = (if cfg.silent = false ∧ g.sz % rbm.batch_size ≠ 0 then 1 else 0) := by
  constructor
  · have hY := (range_epochs_eframe cfg 0 m (init_weights_range cfg (init_training cfg
      (initState rbm ts (prepare_it rbm.caps.has_shuffle cfg.den
        input expected))))).2.2.2.2.2.2.2.2.1
    have hSev : (init_weights_range cfg (init_training cfg (initState rbm ts
        (prepare_it rbm.caps.has_shuffle cfg.den input expected)))).events
        = (if cfg.ew then [Event.training_begin] else []) ++
          (if (!cfg.silent && ((prepare_it rbm.caps.has_shuffle cfg.den
              input expected).work_input.length % rbm.batch_size != 0))
           then [Event.warning] else []) :=
      (init_weights_range_parts cfg _).2.2.2.2.1.trans rfl
    rw [(prepare_it_parts rbm.caps.has_shuffle cfg.den input expected).1] at hSev
    have hfinal : (train_range cfg rbm ts input expected m).events
        = (range_epochs cfg 0 m (init_weights_range cfg (init_training cfg
            (initState rbm ts (prepare_it rbm.caps.has_shuffle cfg.den
              input expected))))).events ++
          (if cfg.ew then [Event.training_end] else []) := rfl
    rw [hfinal, List.count_append, hY, hSev, List.count_append]
    by_cases h1 : cfg.silent <;> by_cases h2 : input.length % rbm.batch_size = 0 <;>
      cases hew : cfg.ew <;> simp [h1, h2]
  · have hY := (gen_epochs_trace cfg m 0 g (init_weights_gen cfg g (init_training_gen cfg g (initState rbm ts emptyBufs)))).2.2
    have hSev : (init_weights_gen cfg g (init_training_gen cfg g (initState rbm ts emptyBufs))).events
        = (if cfg.ew then [Event.training_begin] else []) ++
          (if (!cfg.silent && (g.sz % rbm.batch_size != 0))
           then [Event.warning] else []) :=
      (init_weights_gen_parts cfg g _).2.2.2.1.trans rfl
    have hfinal : (train_gen cfg rbm ts g m).2.events
        = (gen_epochs cfg 0 m (g, init_weights_gen cfg g (init_training_gen cfg g
            (initState rbm ts emptyBufs)))).2.events ++
          (if cfg.ew then [Event.training_end] else []) := rfl
    rw [hfinal, List.count_append, hY, hSev, List.count_append]
    by_cases h1 : cfg.silent <;> by_cases h2 : g.sz % rbm.batch_size = 0 <;>
      cases hew : cfg.ew <;> simp [h1, h2]

theorem train_range_counts (cfg : Cfg σ) (rbm : RBM) (ts : σ)
    (input expected : List Sample) (m : ℕ)
    (hbs : rbm.batch_size ≠ 0)
    (hp : ∀ e, PermOf (cfg.perms e) input.length) :
    (train_range cfg rbm ts input expected m).trace
      = List.replicate m (nBatches rbm.batch_size input.length, input.length) ∧
    (train_range cfg rbm ts input expected m).calls
      = m * nBatches rbm.batch_size input.length := by
  have hbseq : (init_weights_range cfg (init_training cfg (initState rbm ts
      (prepare_it rbm.caps.has_shuffle cfg.den input expected)))).eng.batch_size
      = rbm.batch_size := by
    rw [(init_weights_range_parts cfg _).2.2.1]
    rfl
  have hbs' : (init_weights_range cfg (init_training cfg (initState rbm ts
      (prepare_it rbm.caps.has_shuffle cfg.den input expected)))).eng.batch_size ≠ 0 := by
    rw [hbseq]
    exact hbs
  have hn : (init_weights_range cfg (init_training cfg (initState rbm ts
      (prepare_it rbm.caps.has_shuffle cfg.den input expected)))).bufs.work_input.length
      = input.length := by
    rw [(init_weights_range_parts cfg _).2.2.2.1]
    show (prepare_it rbm.caps.has_shuffle cfg.den input expected).work_input.length = _
    rw [(prepare_it_parts rbm.caps.has_shuffle cfg.den input expected).1]
  obtain ⟨t1, t2, -⟩ := range_epochs_counts cfg m 0 (init_weights_range cfg (init_training cfg
    (initState rbm ts (prepare_it rbm.caps.has_shuffle cfg.den input expected))))
    input.length hbs' hn hp
  rw [hbseq] at t1 t2
  constructor
  · show (range_epochs cfg 0 m _).trace = _
    rw [t1, (init_weights_range_parts cfg _).1]
    show ([] : List (ℕ × ℕ)) ++ _ = _
    rw [List.nil_append]
  · show (range_epochs cfg 0 m _).calls = _
    rw [t2, (init_weights_range_parts cfg _).2.1]
    show 0 + _ = _
    rw [Nat.zero_add]

/-- C1 (amended): a range-based epoch over `n` samples with batch size
`bs` performs exactly `⌈n / bs⌉` trainer invocations — the trailing
remainder samples beyond the last full batch form a final, shorter
batch that IS passed to the trainer (nothing is dropped): every epoch
counts all `n` samples, the presented batches are the slices
`chunksOf bs` of the shuffled data, and those slices concatenate back
to the full sequence. -/
theorem claim_C1_amended (cfg : Cfg σ) (rbm : RBM) (ts : σ)
    (input expected : List Sample) (m : ℕ)
    (hbs : rbm.batch_size ≠ 0)
    (hp : ∀ e, PermOf (cfg.perms e) input.length) :
    (train_range cfg rbm ts input expected m).trace
      = List.replicate m (nBatches rbm.batch_size input.length, input.length) ∧
    (train_range cfg rbm ts input expected m).calls
      = m * nBatches rbm.batch_size input.length ∧
    (∀ xs : List Sample, (chunksOf rbm.batch_size xs).flatten = xs) ∧
    (∀ (e : ℕ) (t : RunState σ), t.eng.batch_size ≠ 0 →
      (range_epoch cfg e t).presented = t.presented ++
        chunksOf t.eng.batch_size (shuffle cfg.den t.rbm.caps.has_shuffle (cfg.perms e)
          t.bufs.work_input t.bufs.work_expected).1) := by
  obtain ⟨t1, t2⟩ := train_range_counts cfg rbm ts input expected m hbs hp
  exact ⟨t1, t2, fun xs => chunksOf_flatten hbs xs,
    fun e t ht => (range_epoch_counts cfg e t ht).2.2.1⟩

/-- C1, as frozen, is false on the code: with 3 samples and batch
size 2, one epoch performs 2 trainer invocations, not
`floor(3/2) = 1`, and the per-epoch sample counter reaches 3 — the
remainder sample is trained, not dropped. -/
theorem claim_C1_counterexample :
    (train_range cfgU rbmU () inp3 inp3 1).calls = 2 ∧
    (train_range cfgU rbmU () inp3 inp3 1).trace = [(2, 3)] ∧
    inp3.length / rbmU.batch_size = 1 ∧ (2 : ℕ) ≠ 1 := by
  have hp : ∀ e, PermOf (cfgU.perms e) inp3.length := by
    intro e
    show List.Perm [0, 1, 2] (List.range 3)
    rw [show List.range 3 = [0, 1, 2] from rfl]
  obtain ⟨t1, t2⟩ := train_range_counts cfgU rbmU () inp3 inp3 1 (by decide) hp
  refine ⟨?_, ?_, by decide, by decide⟩
  · rw [t2]
    decide
  · rw [t1]
    decide

theorem claim_C1_amended_witness :
    (train_range cfgU rbmU () inp3 inp3 2).trace
      = List.replicate 2 (nBatches rbmU.batch_size inp3.length, inp3.length) ∧
    (train_range cfgU rbmU () inp3 inp3 2).calls
      = 2 * nBatches rbmU.batch_size inp3.length := by
  have h := claim_C1_amended cfgU rbmU () inp3 inp3 2 (by decide)
    (fun e => by
      show List.Perm [0, 1, 2] (List.range 3)
      rw [show List.range 3 = [0, 1, 2] from rfl])
  exact ⟨h.1, h.2.1⟩

/-- C2 (amended): a zero-epoch `train` returns 0.0, performs no
trainer invocation and finalizes no epoch; layers without the
`init_weights` capability keep their weights bit-for-bit — but the
momentum field is still reset to `initial_momentum`, and (see the
counterexample) an `init_weights`-capable layer still receives its
one-time data-dependent self-initialization. -/
theorem claim_C2_zero_epochs (cfg : Cfg σ) (rbm : RBM) (ts : σ)
    (input expected : List Sample) :
    train_range_error cfg rbm ts input expected 0 = 0 ∧
    (train_range cfg rbm ts input expected 0).calls = 0 ∧
    (train_range cfg rbm ts input expected 0).trace = [] ∧
    (rbm.caps.init_weights = false →
      (train_range cfg rbm ts input expected 0).rbm.weights = rbm.weights) ∧
    (train_range cfg rbm ts input expected 0).rbm.momentum = rbm.initial_momentum := by
  obtain ⟨q1, q2, q3, -, -, -, q7, -, -, -, q11⟩ := init_weights_range_parts cfg
    (init_training cfg (initState rbm ts
      (prepare_it rbm.caps.has_shuffle cfg.den input expected)))
  refine ⟨?_, ?_, ?_, ?_, ?_⟩
  · show (init_weights_range cfg _).eng.last_error = 0
    rw [q3]
    rfl
  · show (init_weights_range cfg _).calls = 0
    rw [q2]
    rfl
  · show (init_weights_range cfg _).trace = []
    rw [q1]
    rfl
  · intro hf
    show (init_weights_range cfg _).rbm.weights = rbm.weights
    exact (q11 hf).trans rfl
  · show (init_weights_range cfg _).rbm.momentum = rbm.initial_momentum
    rw [q7]
    rfl

/-- C2, as frozen, is false on the code: with zero epochs, a layer
declaring the `init_weights` capability still has its weights mutated
by the one-time data-dependent initialization, which runs before the
epoch loop. -/
theorem claim_C2_counterexample :
    (train_range cfgW rbmW () [[1]] [[1]] 0).rbm.weights = [42] ∧
    rbmW.weights = [0] ∧ ([42] : List ℚ) ≠ [0] := by
  refine ⟨rfl, rfl, by decide⟩

theorem claim_C2_zero_epochs_witness :
    train_range_error cfgU rbmU () inp3 inp3 0 = 0 ∧
    (train_range cfgU rbmU () inp3 inp3 0).rbm.weights = rbmU.weights := by
  obtain ⟨w1, -, -, w4, -⟩ := claim_C2_zero_epochs cfgU rbmU () inp3 inp3
  exact ⟨w1, w4 rfl⟩

theorem epoch_entry_parts (cfg : Cfg σ) (e : ℕ) (s : RunState σ) :
    (epoch_entry cfg e s).ctx = ({} : Context) ∧
    (epoch_entry cfg e s).eng.batches = 0 ∧
    (epoch_entry cfg e s).eng.samples = 0 ∧
    (epoch_entry cfg e s).ts = s.ts ∧
    (epoch_entry cfg e s).rbm = s.rbm ∧
    (epoch_entry cfg e s).eng.batch_size = s.eng.batch_size :=
  ⟨rfl, rfl, rfl, rfl, rfl, rfl⟩

theorem range_epoch_def (cfg : Cfg σ) (e : ℕ) (s : RunState σ) :
    range_epoch cfg e s = finalize_epoch cfg e (range_batches cfg s.eng.batch_size
      (epochShuffled cfg e s).1 (epochShuffled cfg e s).2 (epoch_entry cfg e s)) := rfl

/-- C3: in every range-based epoch with at least one batch, the
reconstruction error and sparsity reported at epoch end (in the
`epoch_end` notification, in the context, and saved as the returned
`last_error`) are the arithmetic means of the trainer-set
`batch_error`/`batch_sparsity` values over exactly that epoch's batch
count, and the free-energy accumulator is divided by that epoch's
sample count (the length of the shuffled working sequence); the value
`train` returns is the `last_error` saved by the final epoch. -/
theorem claim_C3_epoch_means (cfg : Cfg σ) (e : ℕ) (s : RunState σ)
    (hbs : s.eng.batch_size ≠ 0) (hew : cfg.ew = true)
    (hne : (epochShuffled cfg e s).1 ≠ []) :
    (range_epoch cfg e s).eng.last_error
      = ((epochOuts cfg e s).map Prod.fst).sum / (epochBatchCount cfg e s : ℚ) ∧
    (range_epoch cfg e s).ctx.reconstruction_error
      = ((epochOuts cfg e s).map Prod.fst).sum / (epochBatchCount cfg e s : ℚ) ∧
    (range_epoch cfg e s).ctx.sparsity
      = ((epochOuts cfg e s).map Prod.snd).sum / (epochBatchCount cfg e s : ℚ) ∧
    (epochOuts cfg e s).length = epochBatchCount cfg e s ∧
    (range_epoch cfg e s).ctx.free_energy
      = epochFeAcc cfg e s / ((epochShuffled cfg e s).1.length : ℚ) ∧
    (range_epoch cfg e s).events.getLast?
      = some (Event.epoch_end e
          (((epochOuts cfg e s).map Prod.fst).sum / (epochBatchCount cfg e s : ℚ))
          (((epochOuts cfg e s).map Prod.snd).sum / (epochBatchCount cfg e s : ℚ))
          (epochFeAcc cfg e s / ((epochShuffled cfg e s).1.length : ℚ))) ∧
    (∀ (k : ℕ) (t : RunState σ),
      range_epochs cfg 0 (k + 1) t = range_epoch cfg k (range_epochs cfg 0 k t)) ∧
    (∀ (rbm₀ : RBM) (ts₀ : σ) (input expected : List Sample) (mm : ℕ),
      train_range_error cfg rbm₀ ts₀ input expected mm
        = (train_range cfg rbm₀ ts₀ input expected mm).eng.last_error) := by
  obtain ⟨h1, h2, h3, h4, h5⟩ := epoch_core_ctx cfg e s.eng.batch_size
    (epochShuffled cfg e s).1 (epochShuffled cfg e s).2 (epoch_entry cfg e s) hbs
  obtain ⟨p1, p2, p3, p4, p5, p6⟩ := epoch_entry_parts cfg e s
  simp only [p1, p2, p3, p4, p5,
    show ({} : Context).reconstruction_error = 0 from rfl,
    show ({} : Context).sparsity = 0 from rfl,
    show ({} : Context).free_energy = 0 from rfl,
    zero_add, Nat.zero_add] at h1 h2 h3 h4 h5
  refine ⟨?_, ?_, ?_, ?_, ?_, ?_, ?_, ?_⟩
  · rw [range_epoch_def]
    exact h1
  · rw [range_epoch_def]
    exact h2
  · rw [range_epoch_def]
    exact h3
  · exact stepOuts_length cfg.hooks s.ts s.rbm.weights s.eng.batch_size
      (epochShuffled cfg e s).1 (epochShuffled cfg e s).2 hbs
  · rw [range_epoch_def]
    exact h4
  · rw [range_epoch_def, h5, if_pos hew, List.getLast?_concat]
    rfl
  · intro k t
    have h := range_epochs_succ cfg 0 k t
    rw [Nat.zero_add] at h
    exact h
  · intro rbm₀ ts₀ input expected mm
    rfl

theorem claim_C3_epoch_means_witness :
    (range_epoch cfgU 0 sU).eng.last_error
      = ((epochOuts cfgU 0 sU).map Prod.fst).sum / (epochBatchCount cfgU 0 sU : ℚ) ∧
    (epochOuts cfgU 0 sU).length = epochBatchCount cfgU 0 sU := by
  have h := claim_C3_epoch_means cfgU 0 sU (by decide) rfl (by decide)
  exact ⟨h.1, h.2.2.2.1⟩

/-- C6: the denoising-mode shuffle applies one joint permutation: at
every post-shuffle position the (input, expected) pair is a pair that
existed, at one common position `j`, before the shuffle — no input is
ever paired with a mismatched expected value. -/
theorem claim_C6_shuffle_pairing (p : List ℕ) (input expected : List Sample)
    (hp : ∀ i ∈ p, i < input.length) (hlen : expected.length = input.length)
    (k : ℕ) (hk : k < p.length) :
    ∃ j, j < input.length ∧ j < expected.length ∧
      (shuffle true true p input expected).1.getD k [] = input.getD j [] ∧
      (shuffle true true p input expected).2.getD k [] = expected.getD j [] := by
  have hk1 : k < (applyPerm p input).length := by
    simpa [applyPerm] using hk
  have hk2 : k < (applyPerm p expected).length := by
    simpa [applyPerm] using hk
  have hj : p[k] < input.length := hp _ (List.getElem_mem hk)
  refine ⟨p[k], hj, by omega, ?_, ?_⟩
  · show (applyPerm p input).getD k [] = _
    rw [List.getD_eq_getElem _ _ hk1]
    show (p.map _)[k] = _
    rw [List.getElem_map]
    rfl
  · show (applyPerm p expected).getD k [] = _
    rw [List.getD_eq_getElem _ _ hk2]
    show (p.map _)[k] = _
    rw [List.getElem_map]
    rfl

theorem claim_C6_shuffle_pairing_witness :
    ∃ j, j < ([[1], [2]] : List Sample).length ∧ j < ([[3], [4]] : List Sample).length ∧
      (shuffle true true [1, 0] [[1], [2]] [[3], [4]]).1.getD 0 []
        = ([[1], [2]] : List Sample).getD j [] ∧
      (shuffle true true [1, 0] [[1], [2]] [[3], [4]]).2.getD 0 []
        = ([[3], [4]] : List Sample).getD j [] :=
  claim_C6_shuffle_pairing [1, 0] [[1], [2]] [[3], [4]]
    (by decide) (by decide) 0 (by decide)

theorem epoch_core_state (cfg : Cfg σ) (e bs : ℕ) (wi we : List Sample)
    (s₀ : RunState σ) :
    (finalize_epoch cfg e (range_batches cfg bs wi we s₀)).bufs = s₀.bufs ∧
    (finalize_epoch cfg e (range_batches cfg bs wi we s₀)).cursor = s₀.cursor := by
  obtain ⟨-, -, -, -, -, -, f7, -, -, -, f11, -⟩ := range_batches_frame cfg bs wi we s₀
  exact ⟨f7, f11⟩

theorem auto_epoch_def (cfg : Cfg σ) (noise : ℚ) (e : ℕ) (s : RunState σ) :
    auto_epoch cfg noise e s = finalize_epoch cfg e (range_batches cfg s.eng.batch_size
      (corruptImpl noise cfg.draws s.cursor (autoClean cfg e s)).1 (autoClean cfg e s)
      (auto_entry cfg noise e s)) := rfl

theorem auto_epoch_parts (cfg : Cfg σ) (noise : ℚ) (e : ℕ) (s : RunState σ) :
    (auto_epoch cfg noise e s).bufs.work_expected = autoClean cfg e s ∧
    (auto_epoch cfg noise e s).bufs.work_input
      = (corruptImpl noise cfg.draws s.cursor (autoClean cfg e s)).1 ∧
    (auto_epoch cfg noise e s).cursor
      = (corruptImpl noise cfg.draws s.cursor (autoClean cfg e s)).2 := by
  rw [auto_epoch_def]
  obtain ⟨hb, hc⟩ := epoch_core_state cfg e s.eng.batch_size
    (corruptImpl noise cfg.draws s.cursor (autoClean cfg e s)).1 (autoClean cfg e s)
    (auto_entry cfg noise e s)
  refine ⟨?_, ?_, ?_⟩
  · rw [hb]
    rfl
  · rw [hb]
    rfl
  · rw [hc]
    rfl

/-- C9: every denoising-auto epoch regenerates the corrupted buffer
from the freshly shuffled clean buffer: element `j` of sample `i` is
the clean element times 0 or 1 according to a fresh draw at the
distinct stream position `cursor + totalScalars(first i samples) + j`,
the cursor then advances past all consumed draws (so the next epoch
uses entirely fresh draws), and the epoch's outcome does not depend on
the corrupted buffer's previous content — corruption is never cached
across epochs. -/
theorem claim_C9_fresh_corruption (cfg : Cfg σ) (noise : ℚ) (e : ℕ) (s : RunState σ) :
    (auto_epoch cfg noise e s).bufs.work_expected = autoClean cfg e s ∧
    (auto_epoch cfg noise e s).bufs.work_input.length = (autoClean cfg e s).length ∧
    (∀ i, i < (autoClean cfg e s).length →
      ((auto_epoch cfg noise e s).bufs.work_input.getD i []).length
        = ((autoClean cfg e s).getD i []).length ∧
      ∀ j, j < ((autoClean cfg e s).getD i []).length →
        ((auto_epoch cfg noise e s).bufs.work_input.getD i []).getD j 0
          = ((autoClean cfg e s).getD i []).getD j 0 *
            (if cfg.draws (s.cursor + totalScalars ((autoClean cfg e s).take i) + j)
              < noise * 1000 then 0 else 1)) ∧
    (auto_epoch cfg noise e s).cursor = s.cursor + totalScalars (autoClean cfg e s) ∧
    (∀ c₀ : List Sample,
      auto_epoch cfg noise e { s with bufs := { s.bufs with work_input := c₀ } }
        = auto_epoch cfg noise e s) := by
  obtain ⟨a1, a2, a3⟩ := auto_epoch_parts cfg noise e s
  obtain ⟨c1, c2, c3⟩ := corruptImpl_spec noise cfg.draws s.cursor (autoClean cfg e s)
  refine ⟨a1, ?_, ?_, ?_, fun c₀ => rfl⟩
  · rw [a2, c2]
  · intro i hi
    obtain ⟨l1, l2⟩ := c3 i hi
    rw [a2]
    exact ⟨l1, l2⟩
  · rw [a3, c1]

theorem claim_C5_momentum_schedule_witness :
    (train_range cfgU rbmM () inp3 inp3 1).rbm.momentum = rbmM.initial_momentum ∧
    (train_range cfgU rbmM () inp3 inp3 2).rbm.momentum = rbmM.final_momentum := by
  obtain ⟨w1, w2, -, -⟩ := claim_C5_momentum_schedule cfgU rbmM () inp3 inp3 rfl
  exact ⟨w1 1 (by decide), w2 2 (by decide)⟩

theorem claim_C7_no_shuffle_deterministic_witness :
    train_range { cfgU with perms := fun _ => [2, 1, 0] } rbmU () inp3 inp3 1
      = train_range { cfgU with perms := fun _ => [0, 1, 2] } rbmU () inp3 inp3 1 :=
  (claim_C7_no_shuffle_deterministic cfgU rbmU () inp3 inp3 1
    (fun _ => [2, 1, 0]) (fun _ => [0, 1, 2]) rfl).1

theorem claim_C8_warning_once_witness :
    (train_range cfgU rbmU () inp3 inp3 5).events.count Event.warning
      = (if cfgU.silent = false ∧ inp3.length % rbmU.batch_size ≠ 0 then 1 else 0) :=
  (claim_C8_warning_once cfgU rbmU () inp3 inp3 5 genU (by decide)).1

theorem claim_C10_caller_unmodified_witness :
    (train_range cfgU rbmS () inp3 inp3 2).bufs.caller_input = inp3 ∧
    (train_range cfgU rbmS () inp3 inp3 2).bufs.caller_expected = inp3 := by
  obtain ⟨w1, w2, -⟩ := claim_C10_caller_unmodified cfgU rbmS () inp3 inp3 2 rfl
  exact ⟨w1, w2⟩

end DLL
